import Mathlib

/-!
# Verification of the `argp` command-line parser core

Shallow embedding of the option/argument dispatch engine (`Argp.parse`) and
the composite-value scanning engine (`scanVar` / `truncEnd` / `scanValue`)
of the `tdewolff/argp` Go package, translated from `src/unnamed/part_002`
(the current revision of `argp.go`; the named `argp.go` in the repository
snapshot is an older revision) together with the `Count` and `Append`
capability implementations from `src/custom.go`.

Embedding conventions:
* Go strings are modelled as `List Char` (`Str`).  Byte-level operations of
  the source (`arg[i]`, `utf8.DecodeRuneInString`) become head/tail operations
  on the char list; all delimiters the code compares against are ASCII, so
  this is faithful for the scanned syntax.  `strings.ToLower` and the
  `unicode` classifiers are modelled at ASCII level.
* `reflect.Value` destinations become an explicit `Kind`/`Value` pair; the
  `Custom` capability destinations `Count` and `Append` become explicit
  `Dest` constructors, mirroring the type dispatch of the source.
* Sentinel values of the source (`Index int` with `-1` for "unused",
  `Short rune` with `0` for "unused") are rendered as `Option`.
* `fmt.Errorf` results become an `Err` inductive with one constructor per
  distinct format string of the source.
* Floating point destinations store the accepted literal: the code only ever
  validates float syntax (`strconv.ParseFloat`) and stores the result, and no
  claim under verification compares distinct literals of one float value.
  `goParseFloat` models the decimal/inf/nan forms of `strconv.ParseFloat`
  (hexadecimal floats and digit-separating underscores are not modelled).
* The scanning recursion of the source contains loops whose termination is
  not structural (and `Argp.parse`'s option loop can in fact fail to
  terminate, see `C1`..`C6` analysis: a boolean long option with a glued
  unparseable value makes the cursor step `i += n; i--; i++` loop forever).
  All recursion is therefore driven by an explicit fuel counter; running out
  of fuel yields the distinguished error `Err.fuel`.  Every theorem below is
  either fuel-parametric or instantiated at an amply sufficient fuel.
* The Go code mutates destinations in place and does not roll back on error;
  the pure embedding returns the pre-call value on error.  No claim verified
  here observes partially-mutated state of a failed scan.
* Sub-command routing (the `argp.cmds` lookup at the top of `parse`) and the
  registration-time construction functions (`NewCmd`, `AddOpt`, ...) are
  outside the claims under verification; the embedding models one parser
  node as its list of registered `Var` bindings.
-/

namespace Argp

/-- Go strings, modelled as lists of characters. -/
abbrev Str := List Char

/-- Convert a Lean string literal to the embedding's string type. -/
def str (s : String) : Str := s.toList

/-- The `\x7b` opening curly bracket. -/
def lcurl : Char := Char.ofNat 123

/-- The `\x7d` closing curly bracket. -/
def rcurl : Char := Char.ofNat 125

/-- ASCII model of `strings.ToLower`. -/
def lowerStr (s : Str) : Str := s.map Char.toLower

/-- ASCII digit test, as used by `Count.Scan`'s leading-character check. -/
def isDigitChar (c : Char) : Bool := '0' ≤ c ∧ c ≤ '9'

/-- Character list to the natural number it denotes in base 10;
`none` if empty or containing a non-digit.  Models the base-10 digit loop
of `strconv.ParseUint`. -/
def digitsToNat : Str → Option Nat
  | [] => none
  | cs => cs.foldl (fun acc c => match acc with
      | none => none
      | some n => if isDigitChar c then some (n * 10 + (c.toNat - 48)) else none)
      (some 0)

/-- Model of `strconv.ParseBool`: exactly the twelve accepted literals. -/
def goParseBool (s : Str) : Option Bool :=
  if s = str "1" ∨ s = str "t" ∨ s = str "T" ∨ s = str "true" ∨
     s = str "TRUE" ∨ s = str "True" then some true
  else if s = str "0" ∨ s = str "f" ∨ s = str "F" ∨ s = str "false" ∨
     s = str "FALSE" ∨ s = str "False" then some false
  else none

/-- Model of `strconv.ParseUint(s, 10, 64)`: base-10 digits only, no sign,
range `0 .. 2^64-1`. -/
def goParseUint (s : Str) : Option Nat :=
  match digitsToNat s with
  | none => none
  | some n => if n < 2 ^ 64 then some n else none

/-- Model of `strconv.ParseInt(s, 10, 64)`: optional sign, base-10 digits,
range `-2^63 .. 2^63-1`. -/
def goParseInt (s : Str) : Option Int :=
  match s with
  | '-' :: rest =>
    match digitsToNat rest with
    | none => none
    | some n => if (n : Int) ≤ 2 ^ 63 then some (-(n : Int)) else none
  | '+' :: rest =>
    match digitsToNat rest with
    | none => none
    | some n => if (n : Int) < 2 ^ 63 then some (n : Int) else none
  | _ =>
    match digitsToNat s with
    | none => none
    | some n => if (n : Int) < 2 ^ 63 then some (n : Int) else none

/-- Syntax check for the decimal forms accepted by `strconv.ParseFloat`:
`[sign] digits [. digits] [e [sign] digits]` with at least one mantissa
digit on either side of the dot, plus the `inf`/`infinity`/`nan` specials
(hexadecimal floats and underscores are not modelled; no verified claim
depends on them). -/
def goParseFloatValid (s : Str) : Bool :=
  let lower := lowerStr s
  let unsigned : Str := match lower with
    | '+' :: rest => rest
    | '-' :: rest => rest
    | _ => lower
  if unsigned = str "inf" ∨ unsigned = str "infinity" ∨ unsigned = str "nan" then
    true
  else
    let mantissa : Str := unsigned.takeWhile (fun c => c ≠ 'e')
    let expo : Str := unsigned.drop mantissa.length
    let mantOk :=
      let intPart := mantissa.takeWhile (fun c => c ≠ '.')
      let fracDot := mantissa.drop intPart.length
      (intPart.all isDigitChar) &&
      (match fracDot with
       | [] => !intPart.isEmpty
       | '.' :: frac => frac.all isDigitChar && (!intPart.isEmpty || !frac.isEmpty)
       | _ => false)
    let expOk : Bool := match expo with
      | [] => true
      | 'e' :: rest =>
        let digits : Str := match rest with
          | '+' :: ds => ds
          | '-' :: ds => ds
          | ds => ds
        !digits.isEmpty && digits.all isDigitChar
      | _ => false
    mantOk && expOk

/-- Signed integer widths of the supported destinations
(`int`, `int8` .. `int64`). -/
inductive IntW | i | i8 | i16 | i32 | i64
deriving DecidableEq, Repr

/-- Unsigned integer widths of the supported destinations. -/
inductive UintW | u | u8 | u16 | u32 | u64
deriving DecidableEq, Repr

/-- Float widths of the supported destinations. -/
inductive FloatW | f32 | f64
deriving DecidableEq, Repr

/-- The closed set of destination types supported by `isValidBaseType`:
scalars, fixed arrays, slices, maps and structs, nested arbitrarily. -/
inductive Kind
  | string
  | bool
  | int (w : IntW)
  | uint (w : UintW)
  | float (w : FloatW)
  | array (len : Nat) (elem : Kind)
  | slice (elem : Kind)
  | map (key val : Kind)
  | strct (fields : List (Str × Kind))

/-- Runtime values held by destinations.  Map values are association lists
(the scan path of the source only ever inserts via `SetMapIndex`, never
iterates, so representation order is unobservable). -/
inductive Value
  | str (s : Str)
  | bool (b : Bool)
  | int (w : IntW) (i : Int)
  | uint (w : UintW) (n : Nat)
  | float (w : FloatW) (lit : Str)
  | array (elems : List Value)
  | slice (elems : List Value)
  | map (entries : List (Value × Value))
  | strct (fields : List Value)

mutual
/-- Structural equality test on values, the embedding's counterpart of Go's
`==` on map keys (only used by `SetMapIndex` upserts). -/
def Value.beq : Value → Value → Bool
  | .str a, .str b => a = b
  | .bool a, .bool b => a = b
  | .int w a, .int w' b => w = w' && a = b
  | .uint w a, .uint w' b => w = w' && a = b
  | .float w a, .float w' b => w = w' && a = b
  | .array a, .array b => Value.beqList a b
  | .slice a, .slice b => Value.beqList a b
  | .map a, .map b => Value.beqPairs a b
  | .strct a, .strct b => Value.beqList a b
  | _, _ => false

/-- Elementwise `Value.beq`. -/
def Value.beqList : List Value → List Value → Bool
  | [], [] => true
  | a :: as', b :: bs => Value.beq a b && Value.beqList as' bs
  | _, _ => false

/-- Pairwise `Value.beq` on map entries. -/
def Value.beqPairs : List (Value × Value) → List (Value × Value) → Bool
  | [], [] => true
  | a :: as', b :: bs =>
    Value.beq a.1 b.1 && Value.beq a.2 b.2 && Value.beqPairs as' bs
  | _, _ => false
end

mutual
/-- `reflect.New(T).Elem()`: the zero value of a kind. -/
def Kind.zero : Kind → Value
  | .string => .str []
  | .bool => .bool false
  | .int w => .int w 0
  | .uint w => .uint w 0
  | .float w => .float w (str "0")
  | .array n e => .array (List.replicate n e.zero)
  | .slice _ => .slice []
  | .map _ _ => .map []
  | .strct fs => .strct (Kind.zeroFields fs)

/-- Zero values of a struct's field list. -/
def Kind.zeroFields : List (Str × Kind) → List Value
  | [] => []
  | f :: fs => f.2.zero :: Kind.zeroFields fs
end

mutual
/-- Value/kind agreement, the embedding's counterpart of a `reflect.Value`
being of a given `reflect.Type` (exact kind; the cross-width numeric
conversions of `reflect.CanConvert` are never exercised by the code paths
under verification, where defaults are captured from the destination
itself). -/
def Value.hasKind : Value → Kind → Bool
  | .str _, .string => true
  | .bool _, .bool => true
  | .int w _, .int w' => w = w'
  | .uint w _, .uint w' => w = w'
  | .float w _, .float w' => w = w'
  | .array es, .array n e => es.length = n ∧ Value.allKind es e
  | .slice es, .slice e => Value.allKind es e
  | .map ents, .map kk kv => Value.allKindPairs ents kk kv
  | .strct vs, .strct fs => Value.fieldsKind vs fs
  | _, _ => false

/-- Every element has the given kind. -/
def Value.allKind : List Value → Kind → Bool
  | [], _ => true
  | v :: vs, k => v.hasKind k ∧ Value.allKind vs k

/-- Every entry's key and value have the given kinds. -/
def Value.allKindPairs : List (Value × Value) → Kind → Kind → Bool
  | [], _, _ => true
  | e :: es, kk, kv => e.1.hasKind kk ∧ e.2.hasKind kv ∧ Value.allKindPairs es kk kv

/-- Struct values match the declared fields pointwise. -/
def Value.fieldsKind : List Value → List (Str × Kind) → Bool
  | [], [] => true
  | v :: vs, f :: fs => v.hasKind f.2 ∧ Value.fieldsKind vs fs
  | _, _ => false
end

/-- A destination slot: either a plain `reflect.Value` of a supported base
type, or one of the `Custom` capability destinations of `custom.go`.
`Count` is modelled at its integer instantiation (the `isInt` test of
`Count.Scan` accepts it); `Append` carries its element kind and the
accumulated elements. -/
inductive Dest
  | plain (k : Kind) (v : Value)
  | count (i : Int)
  | append (elem : Kind) (elems : List Value)

/-- The kind information of a destination that is stable across a parse. -/
def Dest.skel : Dest → Kind ⊕ (Unit ⊕ Kind)
  | .plain k _ => Sum.inl k
  | .count _ => Sum.inr (Sum.inl ())
  | .append e _ => Sum.inr (Sum.inr e)

/-- A registered command option or argument (`type Var` of the source).
`short = none` renders the source's `Short == 0`, `index = none` renders
`Index == -1`.  The display-only `Description` field is omitted. -/
structure Var where
  dest : Dest
  name : Str
  short : Option Char
  index : Option Nat
  rest : Bool
  defaultVal : Option Value
  isSet : Bool

/-- `Var.Set`: convert-and-assign, `false` when the value cannot be
converted.  (On `Custom` destinations the reflective conversion of the
source never succeeds for the values this code passes; registration also
never attaches a default to them.) -/
def Var.set (v : Var) (i : Value) : Option Var :=
  match v.dest with
  | .plain k _ => if i.hasKind k then some { v with dest := .plain k i } else none
  | .count _ => none
  | .append _ _ => none

/-- The composite type names interpolated into `"invalid %v"` and the other
composite error formats. -/
inductive CTyp | array | slice | map | strct
deriving DecidableEq, Repr

/-- Parse/scan errors; one constructor per distinct `fmt.Errorf` format
string of the source. -/
inductive Err
  | missingValue                                -- "missing value"
  | invalidBool (lit : Str)                     -- "invalid boolean '%v'"
  | invalidInt (lit : Str)                      -- "invalid integer '%v'"
  | invalidUint (lit : Str)                     -- "invalid positive integer '%v'"
  | invalidFloat (lit : Str)                    -- "invalid number '%v'"
  | invalidComposite (t : CTyp)                 -- "invalid array|slice|map|struct"
  | invalidValue                                -- ": invalid value" payloads
  | indexErr (t : CTyp) (j : Nat) (e : Err)     -- "%v index %v: %v" (element index)
  | expectedValues (n : Nat) (t : CTyp)         -- "expected %v values for %v"
  | invalidMapKey                               -- "invalid map key"
  | mapKeyMissingSep (key : Str)                -- "map key %v: missing semicolon"
  | mapKeyErr (key : Str) (e : Err)             -- "map key %v: %v"
  | missingStructFields                         -- "missing struct fields"
  | tooManyStructFields                         -- "too many struct fields"
  | structFieldErr (field : Str) (e : Err)      -- "struct field %v: %v"
  | unterminatedIndex                           -- "expected terminating ] in variable index"
  | nameIndexErr (t : CTyp) (name : Str) (e : Err) -- "%v index %v: %v" (name path)
  | indexOutOfRange (t : CTyp) (i : Int)        -- "%v index %v: out of range"
  | missingField (name : Str)                   -- "struct field: missing field %v in struct"
  | unexpectedCharInName (c : Char) (name : Str) -- "unexpected %v in name %v"
  | countNotInt                                 -- "variable must be a pointer to an integer type"
  | appendNotSlice                              -- "variable must be a pointer to a slice"
  | unknownLong (name : Str)                    -- "unknown option --%s"
  | unknownShort (c : Char)                     -- "unknown option -%c"
  | longErr (name : Str) (e : Err)              -- "option --%s: %v"
  | shortErr (c : Char) (e : Err)               -- "option -%c: %v"
  | argErr (idx : Nat) (e : Err)                -- "argument %d: %v"
  | argMissing (name : Str)                     -- "argument %v is missing"
  | defaultType                                 -- "default: expected type %v"
  | fuel                                        -- embedding artefact: fuel exhausted
deriving DecidableEq, Repr

/-! ## truncEnd

`truncEnd` splits the token list for a bracketed composite: everything up to
and including the token (or token fragment) holding the matching top-level
close bracket, and the remainder.  The boolean reports whether the close
bracket sat in the middle of a token (a token split).  Translated from
`src/unnamed/part_002` lines 877-912.  The source pushes expected closing
brackets (`item[i]+2`) onto the end of `levels` and inspects the last; the
embedding pushes onto the head of the list, so the list is reversed relative
to the Go slice. -/

/-- Result of scanning a single token for the top-level close bracket. -/
inductive ItemRes
  | bad                                   -- brackets mismatched
  | found (pre post : Str)                -- close found: `pre` ends with it
  | more (levels : List Char)             -- token exhausted; updated stack
deriving DecidableEq, Repr

/-- Per-character scan of one token (`for i := 0; i < len(item); i++`).
`seen` holds the already-scanned characters in reverse. -/
def scanItem (levels : List Char) (seen : Str) : Str → ItemRes
  | [] => .more levels
  | ch :: restChars =>
    if ch = lcurl ∨ ch = '[' then
      scanItem (Char.ofNat (ch.toNat + 2) :: levels) (ch :: seen) restChars
    else if ch = rcurl ∨ ch = ']' then
      match levels with
      | [] => .bad
      | top :: lower =>
        -- `levels[len(levels)-1] != item[i]` rejects; a match at depth one
        -- closes the composite, otherwise the stack pops
        if top = ch then
          if lower = [] then .found (seen.reverse ++ [ch]) restChars
          else scanItem lower (ch :: seen) restChars
        else .bad
    else scanItem levels (ch :: seen) restChars

/-- Token-by-token scan (`for n, item := range s`); `done` holds the fully
scanned tokens so far, so `done ++ remaining` is always the original list. -/
def truncGo (levels : List Char) (done : List Str) : List Str → Option (List Str) × List Str × Bool
  | [] =>
    if levels = [] then
      -- there were no brackets to begin with
      (some (done.take 1), done.drop 1, false)
    else
      (none, done, false) -- no closing bracket found
  | item :: rest =>
    match scanItem levels [] item with
    | .bad => (none, done ++ item :: rest, false)
    | .found pre post =>
      if post = [] then (some (done ++ [pre]), rest, false)
      else (some (done ++ [pre]), post :: rest, true) -- split last item
    | .more levels' => truncGo levels' (done ++ [item]) rest

/-- `truncEnd` of the source. -/
def truncEnd (s : List Str) : Option (List Str) × List Str × Bool :=
  if s = [] then (some [], s, false) else truncGo [] [] s

/-! ## Small helpers shared by the scanner -/

/-- Whether a token begins with the given character (`s[0][0] == c` guarded
by `0 < len(s[0])`). -/
def firstCharIs (s : Str) (c : Char) : Bool :=
  match s with
  | [] => false
  | c' :: _ => c' = c

/-- Whether a token begins with `\x7b` or `[`. -/
def bracketStart (s : Str) : Bool := firstCharIs s lcurl ∨ firstCharIs s '['

/-- `strings.Join(tokens, " ")`, used for key names in map error messages. -/
def joinSpace : List Str → Str
  | [] => []
  | [t] => t
  | t :: rest => t ++ ' ' :: joinSpace rest

/-- `strings.IndexByte`: position of the first occurrence of a character. -/
def idxOf (s : Str) (c : Char) : Option Nat := s.indexOf? c

/-- `strings.IndexAny(name, ".[")`: position of the first `.` or `[`. -/
def idxDotBracket (s : Str) : Option Nat :=
  s.findIdx? (fun c => c = '.' ∨ c = '[')

/-- Strip the already-matched bracket characters off the first and last
token of a `truncEnd` result (`if len(s[0]) == 1 { s = s[1:] } else
{ s[0] = s[0][1:] }`, and symmetrically at the back). -/
def stripBrackets (s : List Str) : List Str :=
  let s1 : List Str :=
    match s with
    | [] => []
    | t :: rest => if t.length = 1 then rest else t.drop 1 :: rest
  match s1.getLast? with
  | none => s1
  | some last =>
    if last.length = 1 then s1.dropLast
    else s1.dropLast ++ [last.dropLast]

/-- `SetMapIndex`: replace the entry for an existing key or append a new
one. -/
def upsert (es : List (Value × Value)) (k v : Value) : List (Value × Value) :=
  match es with
  | [] => [(k, v)]
  | e :: rest => if Value.beq e.1 k then (k, v) :: rest else e :: upsert rest k v

/-! ## scanValue

`scanValue` (source lines 914-1190) is a recursive scanner whose inner
loops consume tokens.  The recursion is packaged as a single fuel-indexed
step function `scanF` over an explicit call-shape type, so that the
definition is structurally recursive on the fuel and computes by `rfl`:
* `.value`    — a `scanValue(v, s)` call;
* `.elems` / `.elemVal` — the comma/bracket element loop of the
  array/slice case (lines 989-1038), one constructor for the
  comma-consumption phase and one for the value-consumption phase;
* `.mapc` / `.mapKey` — the `key:value` loop of the map case (lines
  1068-1134), split at the point where the key tokens have been isolated;
* `.strc`    — the field loop of the struct case (lines 1156-1185).
-/

/-- Call shapes of the `scanValue` recursion. -/
inductive Call
  | value (k : Kind) (v : Value) (s : List Str)
  | elems (t : CTyp) (ek : Kind) (comma : Bool) (s : List Str) (j n : Nat)
      (acc : List Value)
  | elemVal (t : CTyp) (ek : Kind) (comma : Bool) (s : List Str) (j n : Nat)
      (acc : List Value)
  | mapc (kk kv : Kind) (entries : List (Value × Value)) (s : List Str)
  | mapKey (kk kv : Kind) (entries : List (Value × Value)) (sKey : List Str)
      (s : List Str)
  | strc (flds : List ((Str × Kind) × Value)) (acc : List Value) (s : List Str)

/-- Results of the `scanValue` recursion, per call shape. -/
inductive CRes
  | value (v : Value) (n : Nat)
  | elems (n j : Nat) (acc : List Value)
  | entries (es : List (Value × Value))
  | fields (vs : List Value)

/-- One fuel-indexed step of the `scanValue` recursion.  Each arm carries
the source lines it transcribes.  The `.ok _ => .error .fuel` arms are
unreachable (each call shape only ever returns its matching result shape)
and only discharge the match totality. -/
def scanF : Nat → Call → Except Err CRes
  | 0, _ => .error .fuel
  | fuel + 1, c =>
    match c with
    | .value k v s =>
      match s with
      | [] =>
        -- lines 915-921: `v.Kind() == reflect.String`
        match k with
        | .string => .ok (.value (.str []) 0)
        | _ => .error .missingValue
      | s0 :: _ =>
        match k with
        | .string => .ok (.value (.str s0) 1)
        | .bool =>
          match goParseBool s0 with
          | some b => .ok (.value (.bool b) 1)
          | none => .error (.invalidBool s0)
        | .int w =>
          match goParseInt s0 with
          | some i => .ok (.value (.int w i) 1)
          | none => .error (.invalidInt s0)
        | .uint w =>
          match goParseUint s0 with
          | some u => .ok (.value (.uint w u) 1)
          | none => .error (.invalidUint s0)
        | .float w =>
          if goParseFloatValid s0 then .ok (.value (.float w s0) 1)
          else .error (.invalidFloat s0)
        | .array alen ek =>
          -- lines 956-1046, with typ = "array" and a fresh accumulator
          if s0 = [] then .ok (.value v 1)
          else if ¬ firstCharIs s0 '[' then
            match scanF fuel (.elems .array ek true s 0 0 []) with
            | .error e => .error e
            | .ok (.elems n j acc) =>
              if j ≠ alen then .error (.expectedValues alen .array)
              else .ok (.value (.array acc) n)
            | .ok _ => .error .fuel -- unreachable
          else
            match truncEnd s with
            | (none, _, _) => .error (.invalidComposite .array)
            | (some con, _, split) =>
              if split then .error (.invalidComposite .array)
              else
                match scanF fuel (.elems .array ek false (stripBrackets con) 0 con.length []) with
                | .error e => .error e
                | .ok (.elems n j acc) =>
                  if j ≠ alen then .error (.expectedValues alen .array)
                  else .ok (.value (.array acc) n)
                | .ok _ => .error .fuel -- unreachable
        | .slice ek =>
          -- lines 956-1046, typ = "slice"; the accumulator starts from the
          -- destination's current elements (`slice = reflect.Value(v)`)
          let cur : List Value := match v with | .slice es => es | _ => []
          if s0 = [] then .ok (.value v 1)
          else if ¬ firstCharIs s0 '[' then
            match scanF fuel (.elems .slice ek true s 0 0 cur) with
            | .error e => .error e
            | .ok (.elems n _ acc) => .ok (.value (.slice acc) n)
            | .ok _ => .error .fuel -- unreachable
          else
            match truncEnd s with
            | (none, _, _) => .error (.invalidComposite .slice)
            | (some con, _, split) =>
              if split then .error (.invalidComposite .slice)
              else
                match scanF fuel (.elems .slice ek false (stripBrackets con) 0 con.length cur) with
                | .error e => .error e
                | .ok (.elems n _ acc) => .ok (.value (.slice acc) n)
                | .ok _ => .error .fuel -- unreachable
        | .map kk kv =>
          -- lines 1047-1134
          if s0 = [] then .ok (.value v 1)
          else if ¬ firstCharIs s0 lcurl then .error (.invalidComposite .map)
          else
            match truncEnd s with
            | (none, _, _) => .error (.invalidComposite .map)
            | (some con, _, split) =>
              if split then .error (.invalidComposite .map)
              else
                let entries : List (Value × Value) :=
                  match v with | .map es => es | _ => []
                match scanF fuel (.mapc kk kv entries (stripBrackets con)) with
                | .error e => .error e
                | .ok (.entries es) => .ok (.value (.map es) con.length)
                | .ok _ => .error .fuel -- unreachable
        | .strct fs =>
          -- lines 1135-1185
          if s0 = [] then .ok (.value v 1)
          else if ¬ firstCharIs s0 lcurl then .error (.invalidComposite .strct)
          else
            match truncEnd s with
            | (none, _, _) => .error (.invalidComposite .strct)
            | (some con, _, split) =>
              if split then .error (.invalidComposite .strct)
              else
                let vals : List Value := match v with | .strct vs => vs | _ => []
                match scanF fuel (.strc (fs.zip vals) [] (stripBrackets con)) with
                | .error e => .error e
                | .ok (.fields vs) => .ok (.value (.strct vs) con.length)
                | .ok _ => .error .fuel -- unreachable
    | .elems t ek comma s j n acc =>
      -- comma-consumption phase, lines 990-1004
      if j ≠ 0 ∧ comma then
        let skipped := (s.takeWhile List.isEmpty).length
        let s' := s.drop skipped
        let n' := n + skipped
        match s' with
        | [] => .ok (.elems n' j acc) -- break
        | tok :: rest =>
          if ¬ firstCharIs tok ',' then .ok (.elems n' j acc) -- break
          else if tok.length = 1 then
            scanF fuel (.elemVal t ek comma rest j (n' + 1) acc)
          else
            scanF fuel (.elemVal t ek comma (tok.drop 1 :: rest) j n' acc)
      else
        scanF fuel (.elemVal t ek comma s j n acc)
    | .elemVal t ek comma s j n acc =>
      -- value-consumption phase, lines 1006-1037
      match s with
      | [] =>
        if ¬ comma ∨ j = 0 then .ok (.elems n j acc) -- break
        else
          -- empty value after final comma
          match scanF fuel (.value ek ek.zero [[]]) with
          | .error e => .error (.indexErr t j e)
          | .ok (.value val _) => scanF fuel (.elems t ek comma [] (j + 1) n (acc ++ [val]))
          | .ok _ => .error .fuel -- unreachable
      | tok :: rest =>
        if bracketStart tok then
          if comma then .error (.indexErr t j .invalidValue)
          else
            match truncEnd s with
            | (none, _, _) => .error (.indexErr t j .invalidValue)
            | (some sVal, s', split) =>
              if split then .error (.indexErr t j .invalidValue)
              else
                match scanF fuel (.value ek ek.zero sVal) with
                | .error e => .error (.indexErr t j e)
                | .ok (.value val _) => scanF fuel (.elems t ek comma s' (j + 1) n (acc ++ [val]))
                | .ok _ => .error .fuel -- unreachable
        else
          match (if comma then idxOf tok ',' else none) with
          | some idx =>
            -- `s[0] = s[0][idx:]` keeps the comma for the next phase
            match scanF fuel (.value ek ek.zero [tok.take idx]) with
            | .error e => .error (.indexErr t j e)
            | .ok (.value val _) =>
              scanF fuel (.elems t ek comma (tok.drop idx :: rest) (j + 1) n (acc ++ [val]))
            | .ok _ => .error .fuel -- unreachable
          | none =>
            match scanF fuel (.value ek ek.zero [tok]) with
            | .error e => .error (.indexErr t j e)
            | .ok (.value val _) =>
              scanF fuel (.elems t ek comma rest (j + 1) (if comma then n + 1 else n) (acc ++ [val]))
            | .ok _ => .error .fuel -- unreachable
    | .mapc kk kv entries s =>
      -- key-consumption phase, lines 1068-1101
      match s with
      | [] => .ok (.entries entries)
      | tok :: rest =>
        if bracketStart tok then
          match truncEnd s with
          | (none, _, _) => .error .invalidMapKey
          | (some sKey, s1, _) => -- a split key is not rejected here
            match s1 with
            | [] => .error (.mapKeyMissingSep (joinSpace sKey))
            | t1 :: r1 =>
              if ¬ firstCharIs t1 ':' then .error (.mapKeyMissingSep (joinSpace sKey))
              else if t1.length = 1 then scanF fuel (.mapKey kk kv entries sKey r1)
              else scanF fuel (.mapKey kk kv entries sKey (t1.drop 1 :: r1))
        else
          match idxOf tok ':' with
          | none =>
            let s1 := rest.dropWhile List.isEmpty
            match s1 with
            | [] => .ok (.entries entries) -- break: trailing key silently dropped
            | t1 :: r1 =>
              if ¬ firstCharIs t1 ':' then .error (.mapKeyMissingSep tok)
              else if t1.length = 1 then scanF fuel (.mapKey kk kv entries [tok] r1)
              else scanF fuel (.mapKey kk kv entries [tok] (t1.drop 1 :: r1))
          | some idx =>
            scanF fuel (.mapKey kk kv entries [tok.take idx] (tok.drop (idx + 1) :: rest))
    | .mapKey kk kv entries sKey s =>
      -- key parse and value-consumption phase, lines 1102-1133
      match scanF fuel (.value kk kk.zero sKey) with
      | .error e => .error (.mapKeyErr (joinSpace sKey) e)
      | .ok (.value key _) =>
        match s with
        | [] =>
          -- empty value after semicolon
          match scanF fuel (.value kv kv.zero [[]]) with
          | .error e => .error (.mapKeyErr (joinSpace sKey) e)
          | .ok (.value val _) => scanF fuel (.mapc kk kv (upsert entries key val) [])
          | .ok _ => .error .fuel -- unreachable
        | t2 :: r2 =>
          if bracketStart t2 then
            match truncEnd s with
            | (none, _, _) => .error (.mapKeyErr (joinSpace sKey) .invalidValue)
            | (some sVal, s3, split) =>
              if split then .error (.mapKeyErr (joinSpace sKey) .invalidValue)
              else
                match scanF fuel (.value kv kv.zero sVal) with
                | .error e => .error (.mapKeyErr (joinSpace sKey) e)
                | .ok (.value val _) => scanF fuel (.mapc kk kv (upsert entries key val) s3)
                | .ok _ => .error .fuel -- unreachable
          else
            match idxOf t2 ',' with
            | some idx =>
              match scanF fuel (.value kv kv.zero [t2.take idx]) with
              | .error e => .error (.mapKeyErr (joinSpace sKey) e)
              | .ok (.value val _) =>
                scanF fuel (.mapc kk kv (upsert entries key val) (t2.drop (idx + 1) :: r2))
              | .ok _ => .error .fuel -- unreachable
            | none =>
              match scanF fuel (.value kv kv.zero [t2]) with
              | .error e => .error (.mapKeyErr (joinSpace sKey) e)
              | .ok (.value val _) => scanF fuel (.mapc kk kv (upsert entries key val) r2)
              | .ok _ => .error .fuel -- unreachable
      | .ok _ => .error .fuel -- unreachable
    | .strc flds acc s =>
      -- struct field loop, lines 1156-1185
      match flds with
      | [] =>
        if s.length ≠ 0 then .error .tooManyStructFields else .ok (.fields acc)
      | fld :: flds' =>
        let s1 := s.dropWhile List.isEmpty
        match s1 with
        | [] => .error .missingStructFields
        | tok :: rest =>
          if bracketStart tok then
            match truncEnd s1 with
            | (none, _, _) => .error (.structFieldErr fld.1.1 .invalidValue)
            | (some sVal, s2, split) =>
              if split then .error (.structFieldErr fld.1.1 .invalidValue)
              else
                match scanF fuel (.value fld.1.2 fld.2 sVal) with
                | .error e => .error (.structFieldErr fld.1.1 e)
                | .ok (.value val _) => scanF fuel (.strc flds' (acc ++ [val]) s2)
                | .ok _ => .error .fuel -- unreachable
          else
            match scanF fuel (.value fld.1.2 fld.2 [tok]) with
            | .error e => .error (.structFieldErr fld.1.1 e)
            | .ok (.value val _) => scanF fuel (.strc flds' (acc ++ [val]) rest)
            | .ok _ => .error .fuel -- unreachable

/-- `scanValue(v, s)` of the source: scan tokens into a destination of kind
`k` and current value `v`, returning the new value and the count of whole
tokens consumed. -/
def scanValue (fuel : Nat) (k : Kind) (v : Value) (s : List Str) : Except Err (Value × Nat) :=
  match scanF fuel (.value k v s) with
  | .error e => .error e
  | .ok (.value v' n) => .ok (v', n)
  | .ok _ => .error .fuel -- unreachable

/-! ## scanVar: the Custom dispatch and the `name.field` / `name[index]` path -/

/-- `fromFieldname` (lines 1279-1296): Go field name to option name, at
ASCII level (`unicode.IsTitle`/`IsUpper` collapse to `Char.isUpper`).
`first` tracks `i != 0`, `prevUpper` the previous rune's case. -/
def fromFieldnameAux (first prevUpper : Bool) : Str → Str
  | [] => []
  | c :: rest =>
    if c.isUpper then
      let nextUpper : Bool := match rest with
        | [] => false
        | c' :: _ => c'.isUpper
      let dash : Bool := !first && !rest.isEmpty && (!prevUpper || !nextUpper)
      (if dash then ['-', c.toLower] else [c.toLower]) ++ fromFieldnameAux false true rest
    else c :: fromFieldnameAux false false rest

/-- `fromFieldname` of the source. -/
def fromFieldname (field : Str) : Str := fromFieldnameAux true false field

/-- `toFieldname` (lines 1298-1312): option name to Go field name
(`unicode.ToTitle` collapses to `Char.toUpper` at ASCII level). -/
def toFieldnameAux (capitalize : Bool) : Str → Str
  | [] => []
  | c :: rest =>
    if capitalize then c.toUpper :: toFieldnameAux false rest
    else if c = '-' then toFieldnameAux true rest
    else c :: toFieldnameAux false rest

/-- `toFieldname` of the source. -/
def toFieldname (name : Str) : Str := toFieldnameAux true name

/-- `scanVar(v, name, s)` (lines 789-875): dispatch to a `Custom`
destination's own `Scan`, descend along a dotted/indexed `name` path, or
scan the value directly with the boolean fallback (`err != nil && Kind ==
Bool` sets the destination `true` and reports zero consumed tokens).
Struct field tags (`name:"..."`/`short:"..."`) are registration metadata
not carried by the embedding's `Kind.strct`, so `Tag.Get` yields the empty
string, making the source's tag comparisons `"" == name`. -/
def scanVarF : Nat → Dest → Str → List Str → Except Err (Dest × Nat)
  | 0, _, _, _ => .error .fuel
  | fuel + 1, d, name, s =>
    match d with
    | .count i =>
      -- Count.Scan, custom.go lines 42-62, at its integer instantiation
      match s with
      | s0 :: _ =>
        if (match s0 with | c :: _ => isDigitChar c | [] => false) then
          match scanF fuel (.value (.int .i) (.int .i i) s) with
          | .error e => .error e
          | .ok (.value (.int _ i') n) => .ok (.count i', n)
          | .ok _ => .error .fuel -- unreachable
        else .ok (.count (i + 1), 0)
      | [] => .ok (.count (i + 1), 0)
    | .append ek es =>
      -- Append.Scan, custom.go lines 90-101
      match scanF fuel (.value ek ek.zero s) with
      | .error e => .error e
      | .ok (.value v n) => .ok (.append ek (es ++ [v]), n)
      | .ok _ => .error .fuel -- unreachable
    | .plain k v =>
      match idxDotBracket name with
      | none =>
        -- lines 869-874
        match scanF fuel (.value k v s) with
        | .ok (.value v' n) => .ok (.plain k v', n)
        | .ok _ => .error .fuel -- unreachable
        | .error e =>
          match k with
          | .bool => .ok (.plain .bool (.bool true), 0)
          | _ => .error e
      | some i =>
        -- lines 796-867
        let sep := (name.drop i).headD ' '
        let restAfter :=
          if sep = '.' then
            let j := match idxDotBracket (name.drop (i + 1)) with
              | none => name.length
              | some j' => j' + i + 1
            some ((name.take j).drop (i + 1), name.drop j)
          else
            match idxOf (name.drop (i + 1)) ']' with
            | none => none
            | some j' =>
              let j := j' + i + 2
              some ((name.take (j - 1)).drop (i + 1), name.drop j)
        match restAfter with
        | none => .error .unterminatedIndex
        | some (inner, restName) =>
          match k with
          | .array alen ek =>
            match scanF fuel (.value (.int .i) (.int .i 0) [inner]) with
            | .error e => .error (.nameIndexErr .array inner e)
            | .ok (.value (.int _ idxv) _) =>
              let es := match v with | .array l => l | _ => []
              if idxv < 0 ∨ (alen : Int) ≤ idxv then .error (.indexOutOfRange .array idxv)
              else
                match scanVarF fuel (.plain ek (es.getD idxv.toNat ek.zero)) restName s with
                | .error e => .error e
                | .ok (.plain _ ev, n) => .ok (.plain k (.array (es.set idxv.toNat ev)), n)
                | .ok _ => .error .fuel -- unreachable
            | .ok _ => .error .fuel -- unreachable
          | .slice ek =>
            match scanF fuel (.value (.int .i) (.int .i 0) [inner]) with
            | .error e => .error (.nameIndexErr .slice inner e)
            | .ok (.value (.int _ idxv) _) =>
              let es := match v with | .slice l => l | _ => []
              -- `v.IsNil() || index < 0 || v.Len() <= index`; a nil slice has
              -- length 0, so the nil test is subsumed by the range test
              if idxv < 0 ∨ (es.length : Int) ≤ idxv then .error (.indexOutOfRange .slice idxv)
              else
                match scanVarF fuel (.plain ek (es.getD idxv.toNat ek.zero)) restName s with
                | .error e => .error e
                | .ok (.plain _ ev, n) => .ok (.plain k (.slice (es.set idxv.toNat ev)), n)
                | .ok _ => .error .fuel -- unreachable
            | .ok _ => .error .fuel -- unreachable
          | .map kk kv =>
            match scanF fuel (.value kk kk.zero [inner]) with
            | .error e => .error (.mapKeyErr inner e)
            | .ok (.value key _) =>
              let entries := match v with | .map l => l | _ => []
              match scanVarF fuel (.plain kv kv.zero) restName s with
              | .error e => .error e
              | .ok (.plain _ fv, n) => .ok (.plain k (.map (upsert entries key fv)), n)
              | .ok _ => .error .fuel -- unreachable
            | .ok _ => .error .fuel -- unreachable
          | .strct fs =>
            let goName := match fs.find? (fun f => inner.isEmpty ∨ fromFieldname f.1 = inner) with
              | some f => f.1
              | none => toFieldname inner
            match fs.findIdx? (fun f => f.1 = goName) with
            | none => .error (.missingField goName)
            | some fi =>
              let fk := (fs.getD fi (goName, .bool)).2
              let vs := match v with | .strct l => l | _ => []
              match scanVarF fuel (.plain fk (vs.getD fi fk.zero)) restName s with
              | .error e => .error e
              | .ok (.plain _ fv, n) => .ok (.plain k (.strct (vs.set fi fv)), n)
              | .ok _ => .error .fuel -- unreachable
          | _ => .error (.unexpectedCharInName sep name)

/-- `scanVar` at a single fuel parameter. -/
def scanVar (fuel : Nat) (d : Dest) (name : Str) (s : List Str) : Except Err (Dest × Nat) :=
  scanVarF fuel d name s

/-! ## The dispatcher: `Argp.parse` (lines 664-787)

The embedding models one parser node as its list of registered bindings;
sub-command routing (lines 666-672) dispatches to another such node and is
outside the claims under verification.  The `find*` helpers return the
index of the found binding instead of a mutable pointer into the list. -/

/-- Placeholder binding for the unreachable miss of an indexed access that
follows a successful `find*`. -/
def Var.dummy : Var :=
  { dest := .plain .bool (.bool false), name := [], short := none,
    index := none, rest := false, defaultVal := none, isSet := false }

/-- `findShort` (lines 621-628): `v.Short != 0 && v.Short == short`. -/
def findShort (vars : List Var) (c : Char) : Option Nat :=
  vars.findIdx? (fun v => v.short = some c)

/-- `findName` (lines 630-644): lower-case the query, truncate it at the
first `.` or `[`, then match the stored name (or the short name when the
stored name is empty; `string(v.Short)` of an unset short rune is the NUL
string). -/
def findName (vars : List Var) (name : Str) : Option Nat :=
  if name = [] then none
  else
    let lower := lowerStr name
    let key := match idxDotBracket lower with
      | none => lower
      | some i => lower.take i
    vars.findIdx? (fun v =>
      v.name = key ∨
      (v.name = [] ∧ key = [(v.short.getD (Char.ofNat 0))]))

/-- `findIndex` (lines 646-653). -/
def findIndex (vars : List Var) (i : Nat) : Option Nat :=
  vars.findIdx? (fun v => v.index = some i)

/-- `findRest` (lines 655-662). -/
def findRest (vars : List Var) : Option Nat :=
  vars.findIdx? (fun v => v.rest)

/-- Default application (lines 674-681): every binding with a declared
default is assigned it before any token is consumed; a conversion failure
aborts the parse. -/
def applyDefaults : List Var → Except Err (List Var)
  | [] => .ok []
  | v :: vs =>
    match v.defaultVal with
    | none =>
      match applyDefaults vs with
      | .error e => .error e
      | .ok vs' => .ok (v :: vs')
    | some d =>
      match v.set d with
      | none => .error .defaultType
      | some v' =>
        match applyDefaults vs with
        | .error e => .error e
        | .ok vs' => .ok (v' :: vs')

/-- The short-option bundle loop (lines 718-748): decode one character at a
time, letting each resolved binding scan `[rest-of-token] ++ following
tokens` (with one glued `=` skipped).  A zero-consumption scan continues
the bundle; otherwise the bundle ends and the returned count (less one when
the value was glued) tells the caller how many following raw tokens were
consumed.  The source's `v.isSet = true` at line 747 sits after the
unconditional `continue`/`break` of the inner else-branch and is
unreachable, so this loop does not mark `isSet`. -/
def shortLoop (fuel : Nat) (vars : List Var) : Str → List Str → Except Err (List Var × Nat)
  | [], _ => .ok (vars, 0)
  | c :: cs, args' =>
    match findShort vars c with
    | none => .error (.unknownShort c)
    | some vi =>
      let v := vars.getD vi Var.dummy
      -- `hasEquals := j < len(arg) && arg[j] == '='; if hasEquals { s[0] = s[0][1:] }`
      let s0 := if firstCharIs cs '=' then cs.drop 1 else cs
      let valueGlued := !s0.isEmpty
      let s := if valueGlued then s0 :: args' else args'
      match scanVarF fuel v.dest [c] s with
      | .error e => .error (.shortErr c e)
      | .ok (d', n) =>
        let vars' := vars.set vi { v with dest := d' }
        if n = 0 then shortLoop fuel vars' cs args'
        else .ok (vars', if valueGlued then n - 1 else n)

/-- The indexed-argument loop (lines 756-767): candidates fill bindings at
index 0, 1, 2, ... until a candidate has no binding or candidates run out;
each assignment marks `isSet`. -/
def indexLoop (fuel : Nat) (vars : List Var) (cands : List Str) (index : Nat) :
    Except Err (List Var × Nat) :=
  match cands with
  | [] => .ok (vars, index)
  | cand :: rest =>
    match findIndex vars index with
    | none => .ok (vars, index)
    | some vi =>
      let v := vars.getD vi Var.dummy
      match scanVarF fuel v.dest [] [cand] with
      | .error e => .error (.argErr index e)
      | .ok (d', _) =>
        indexLoop fuel (vars.set vi { v with dest := d', isSet := true }) rest (index + 1)

/-- Nat to decimal digits, for `strconv.Itoa`. -/
def natToStr (n : Nat) : Str := (Nat.toDigits 10 n)

/-- The missing-required-argument check (lines 768-776). -/
def missingArgCheck (vars : List Var) (index : Nat) : Option Err :=
  match vars.find? (fun v =>
      match v.index with
      | some i => index ≤ i && v.defaultVal.isNone
      | none => false) with
  | some v => some (.argMissing (if v.name = [] then natToStr index else v.name))
  | none => none

/-- The positional stage (lines 755-786): indexed assignment, the
missing-argument check, then the rest binding (which receives the remaining
candidates, marks `isSet`, and empties the leftovers; `v.Set`'s boolean
result is ignored by the source). -/
def positionalStage (fuel : Nat) (vars : List Var) (cands : List Str) :
    Except Err (List Var × List Str) :=
  match indexLoop fuel vars cands 0 with
  | .error e => .error e
  | .ok (vars1, index) =>
    match missingArgCheck vars1 index with
    | some e => .error e
    | none =>
      let cands' := cands.drop index
      match findRest vars1 with
      | some vi =>
        let v := vars1.getD vi Var.dummy
        let v1 := (v.set (.slice (cands'.map Value.str))).getD v
        .ok (vars1.set vi { v1 with isSet := true }, [])
      | none => .ok (vars1, cands')

/-- The token-classification loop (lines 683-753) with the cursor rendered
as recursion: `--` ends option scanning, `--name[=value]` is a long option
(marking `isSet` on success; a glued value with zero consumed tokens makes
the source's `i += n; i--` re-process the same token, which never
terminates), `-x...` is a short bundle, any other non-empty token joins the
positional candidates and empty tokens are dropped. -/
def parseLoop : Nat → List Var → List Str → List Str → Except Err (List Var × List Str)
  | 0, _, _, _ => .error .fuel
  | fuel + 1, vars, args, acc =>
    match args with
    | [] => positionalStage fuel vars acc
    | arg :: args' =>
      if arg = str "--" then positionalStage fuel vars (acc ++ args')
      else
        match arg with
        | '-' :: c1 :: _ =>
          if c1 = '-' then
            -- long option, lines 691-716
            let parts := match idxOf arg '=' with
              | none => ((arg.drop 2 : Str), (none : Option Str))
              | some idx =>
                if idx + 1 < arg.length then ((arg.take idx).drop 2, some (arg.drop (idx + 1)))
                else ((arg.take idx).drop 2, none)
            let name := parts.1
            let split := parts.2.isSome
            let s := match parts.2 with
              | some g => g :: args'
              | none => args'
            match findName vars name with
            | none => .error (.unknownLong name)
            | some vi =>
              let v := vars.getD vi Var.dummy
              match scanVarF fuel v.dest name s with
              | .error e => .error (.longErr name e)
              | .ok (d', n) =>
                let vars' := vars.set vi { v with dest := d', isSet := true }
                if split ∧ n = 0 then parseLoop fuel vars' (arg :: args') acc
                else parseLoop fuel vars' (args'.drop (n - (if split then 1 else 0))) acc
          else
            -- short bundle, lines 717-749
            match shortLoop fuel vars (arg.drop 1) args' with
            | .error e => .error e
            | .ok (vars', consumed) => parseLoop fuel vars' (args'.drop consumed) acc
        | [] => parseLoop fuel vars args' acc
        | _ :: _ => parseLoop fuel vars args' (acc ++ [arg])

/-- `Argp.parse(args)` for one parser node: apply defaults, scan the
tokens, then assign positionals; returns the final bindings and the
leftover arguments. -/
def parse (fuel : Nat) (vars : List Var) (args : List Str) : Except Err (List Var × List Str) :=
  match applyDefaults vars with
  | .error e => .error e
  | .ok vars' => parseLoop fuel vars' args []


/-! ## Concrete bindings used by claim instances -/

/-- Index-0 string binding used by the C7 instance. -/
def c7idx0 : Var := Var.mk (.plain .string (.str [])) (str "arg") none (some 0) false none false

/-- Rest binding used by the C7 instance. -/
def c7rest : Var := Var.mk (.plain (.slice .string) (.slice [])) (str "rest") none none true none false

/-- Boolean option binding used by the C2 witness. -/
def c2var : Var := Var.mk (.plain .bool (.bool false)) (str "b") none none false none false

/-- Integer short-option binding used by the C6 counterexample and
witness. -/
def c6var : Var := Var.mk (.plain (.int .i) (.int .i 0)) (str "c") (some 'c') none false none false

/-! ## Definitions for the idempotence analysis (claim C5) -/

/-- Forget the `isSet` mark of a binding. -/
def eraseSet (v : Var) : Var := { v with isSet := false }

/-- Forget the `isSet` marks of a result. -/
def eraseOut : Except Err (List Var × α) → Except Err (List Var × α)
  | .error e => .error e
  | .ok (vs, x) => .ok (vs.map eraseSet, x)

/-- The registration data of a binding that scanning never rewrites. -/
def Var.skel (v : Var) :
    Str × Option Char × Option Nat × Bool × Option Value × (Kind ⊕ (Unit ⊕ Kind)) :=
  (v.name, v.short, v.index, v.rest, v.defaultVal, v.dest.skel)

/-- A Count binding (`-v` tally) with no default, as `argp.Count` of the
source registers it. -/
def c5cvar : Var := Var.mk (.count 0) (str "v") (some 'v') none false none false

/-- An int binding with short name `n` and declared default 7. -/
def c5dvar : Var := Var.mk (.plain (.int .i) (.int .i 0)) (str "n") (some 'n') none false
  (some (.int .i 7)) false

/-! ## Claim C10: composites swallow a leading empty token -/

/-- C10.  For every composite destination kind (array, slice, map, struct),
scanning a token list whose first token is the empty string returns
consumed count 1 with no error and leaves the destination value unchanged:
the empty token is silently swallowed (source lines 963-964, 1049-1050,
1137-1138). -/
theorem c10_composite_empty_token (fuel : Nat) (v : Value) (rest : List Str) :
    (∀ n e, scanValue (fuel + 1) (.array n e) v ([] :: rest) = .ok (v, 1)) ∧
    (∀ e, scanValue (fuel + 1) (.slice e) v ([] :: rest) = .ok (v, 1)) ∧
    (∀ kk kv, scanValue (fuel + 1) (.map kk kv) v ([] :: rest) = .ok (v, 1)) ∧
    (∀ fs, scanValue (fuel + 1) (.strct fs) v ([] :: rest) = .ok (v, 1)) :=
  ⟨fun _ _ => rfl, fun _ => rfl, fun _ _ => rfl, fun _ => rfl⟩

/-! ## Claim C3: scalars given an empty first token -/

/-- C3, counterexample.  The claim says a boolean (or any non-string
scalar) destination given the empty string as its first token fails with
the `MissingValue` error; in fact `strconv.ParseBool("")` fails and the
error is the invalid-literal one (`"invalid boolean ''"`), not
`"missing value"`. -/
theorem c3_counterexample :
    scanValue 1 .bool (.bool false) [[]] = .error (.invalidBool []) ∧
    Err.invalidBool [] ≠ Err.missingValue :=
  ⟨rfl, by decide⟩

/-- C3, amended.  An empty leading token yields the empty string (consuming
the token) for string destinations; for every other scalar kind the scan
fails with that kind's invalid-literal error naming the empty literal
(`MissingValue` only arises on an empty token list, source lines
915-921 versus 925-955). -/
theorem c3_empty_token_scalars (fuel : Nat) (v : Value) (rest : List Str) :
    scanValue (fuel + 1) .string v ([] :: rest) = .ok (.str [], 1) ∧
    scanValue (fuel + 1) .bool v ([] :: rest) = .error (.invalidBool []) ∧
    (∀ w, scanValue (fuel + 1) (.int w) v ([] :: rest) = .error (.invalidInt [])) ∧
    (∀ w, scanValue (fuel + 1) (.uint w) v ([] :: rest) = .error (.invalidUint [])) ∧
    (∀ w, scanValue (fuel + 1) (.float w) v ([] :: rest) = .error (.invalidFloat [])) :=
  ⟨rfl, rfl, fun _ => rfl, fun _ => rfl, fun _ => rfl⟩

/-! ## Claim C4: map keys without a `:` separator -/

/-- C4, counterexample.  The claim says a non-bracket key not followed by
`:` fails with `MissingSeparator` "including the case where the token
sequence ends right after the key".  In fact, scanning `{a}` as a map
succeeds with consumed count 1, the key `a` silently dropped and the
destination untouched (the `break` at source line 1090). -/
theorem c4_counterexample :
    scanValue 9 (.map .string .string) (.map []) [str "{a}"] = .ok (.map [], 1) :=
  rfl

/-- C4, amended.  In the map loop, a non-bracket key containing no `:`
either fails with the missing-semicolon error — when some non-empty token
follows — or is silently dropped with the scan of the bracketed region
succeeding, when only empty tokens (or nothing) follow (source lines
1083-1097: the `break` at line 1090 versus the error at line 1092). -/
theorem c4_nonbracket_key_no_colon (fuel : Nat) (kk kv : Kind)
    (es : List (Value × Value)) (k : Str) (rest : List Str)
    (hbr : bracketStart k = false) (hcol : idxOf k ':' = none) :
    (rest.dropWhile List.isEmpty = [] →
      scanF (fuel + 1) (.mapc kk kv es (k :: rest)) = .ok (.entries es)) ∧
    (∀ t r1, rest.dropWhile List.isEmpty = t :: r1 → firstCharIs t ':' = false →
      scanF (fuel + 1) (.mapc kk kv es (k :: rest)) = .error (.mapKeyMissingSep k)) := by
  constructor
  · intro hdrop
    simp [scanF, hbr, hcol, hdrop]
  · intro t r1 hdrop ht
    simp [scanF, hbr, hcol, hdrop, ht]

/-- Witness for `c4_nonbracket_key_no_colon` at the key `a` followed by one
empty token. -/
theorem c4_nonbracket_key_no_colon_witness :
    scanF 5 (.mapc .string .string [] [str "a", str ""]) = .ok (.entries []) :=
  (c4_nonbracket_key_no_colon 4 .string .string [] (str "a") [[]] rfl rfl).1 rfl

/-! ## Claim C9: truncEnd conserves the token characters -/

/-- Character-level splitting invariant of the per-token scan: a reported
top-level close bracket splits the current token exactly. -/
theorem scanItem_found_append (todo : Str) : ∀ levels seen pre post,
    scanItem levels seen todo = .found pre post → pre ++ post = seen.reverse ++ todo := by
  induction todo with
  | nil => intro levels seen pre post h; simp [scanItem] at h
  | cons ch rest ih =>
    intro levels seen pre post h
    simp only [scanItem] at h
    split at h
    · have := ih _ _ _ _ h
      simpa using this
    · split at h
      · split at h
        · cases h
        · split at h
          · split at h
            · cases h
              simp
            · have := ih _ _ _ _ h
              simpa using this
          · cases h
      · have := ih _ _ _ _ h
        simpa using this

/-- Conservation invariant of the token-by-token scan, carrying the
already-scanned prefix `done`. -/
theorem truncGo_conserve (s : List Str) : ∀ levels done c r fl,
    truncGo levels done s = (some c, r, fl) →
    c.flatten ++ r.flatten = done.flatten ++ s.flatten ∧
    (fl = false → c ++ r = done ++ s) := by
  induction s with
  | nil =>
    intro levels done c r fl h
    simp only [truncGo] at h
    split at h
    · cases h
      refine ⟨?_, fun _ => ?_⟩
      · rw [← List.flatten_append, List.take_append_drop, List.flatten_nil, List.append_nil]
      · rw [List.take_append_drop, List.append_nil]
    · cases h
  | cons item rest ih =>
    intro levels done c r fl h
    simp only [truncGo] at h
    split at h
    · cases h
    · rename_i pre post hfound
      have hpp := scanItem_found_append item _ _ _ _ hfound
      simp only [List.reverse_nil, List.nil_append] at hpp
      split at h
      · rename_i hpost
        cases h
        subst hpost
        simp only [List.append_nil] at hpp
        subst hpp
        refine ⟨?_, fun _ => ?_⟩
        · simp [List.flatten_append]
        · simp
      · cases h
        refine ⟨?_, fun hfl => ?_⟩
        · simp only [List.flatten_append, List.flatten_cons, List.flatten_nil,
            List.append_nil, List.append_assoc]
          rw [← List.append_assoc pre post, hpp]
        · cases hfl
    · have := ih _ _ _ _ _ h
      refine ⟨?_, fun hfl => ?_⟩
      · rw [this.1]
        simp [List.flatten_append]
      · rw [this.2 hfl]
        simp

/-- C9.  Whenever `truncEnd` returns a non-nil consumed list, the
character-for-character concatenation of the consumed tokens followed by
the remaining tokens equals the concatenation of the input tokens; and when
the split flag is false, the consumed list is literally a prefix of the
input with the remaining list the corresponding suffix. -/
theorem c9_truncEnd_conserves (s : List Str) (c r : List Str) (fl : Bool)
    (h : truncEnd s = (some c, r, fl)) :
    c.flatten ++ r.flatten = s.flatten ∧ (fl = false → c ++ r = s) := by
  unfold truncEnd at h
  split at h
  · rename_i hs
    cases h
    subst hs
    exact ⟨rfl, fun _ => rfl⟩
  · have := truncGo_conserve s [] [] c r fl h
    simpa using this

/-- Witness for `c9_truncEnd_conserves` on the bracketed token pair
`["[1", "2]"]`. -/
theorem c9_truncEnd_conserves_witness :
    (List.flatten [str "[1", str "2]"] ++ List.flatten ([] : List Str) =
      List.flatten [str "[1", str "2]"]) ∧
    (false = false → [str "[1", str "2]"] ++ [] = [str "[1", str "2]"]) :=
  c9_truncEnd_conserves [str "[1", str "2]"] [str "[1", str "2]"] [] false rfl

/-! ## Claim C8: token classification around `--` -/

/-- C8.  Token classification of the dispatch loop: a `--` token sends
every following token (empty strings and `-`-initial tokens included) to
the positional candidates unconditionally; before that, an empty token is
discarded and any other token that is not option-shaped (shorter than two
characters or not beginning with `-`) is appended, in order, to the
positional-candidate list (source lines 684-688 and 750-752). -/
theorem c8_token_classification (fuel : Nat) (vars : List Var) (acc : List Str) :
    (∀ post, parseLoop (fuel + 1) vars (str "--" :: post) acc =
      positionalStage fuel vars (acc ++ post)) ∧
    (∀ rest, parseLoop (fuel + 1) vars ([] :: rest) acc = parseLoop fuel vars rest acc) ∧
    (∀ tok rest, tok ≠ [] →
      (firstCharIs tok '-' = false ∨ tok.length ≤ 1) →
      parseLoop (fuel + 1) vars (tok :: rest) acc = parseLoop fuel vars rest (acc ++ [tok])) := by
  refine ⟨fun post => rfl, fun rest => rfl, fun tok rest hne hopt => ?_⟩
  match tok, hne with
  | c :: cs, _ =>
    simp only [parseLoop]
    have hdd : ¬(c :: cs = str "--") := by
      rcases hopt with h | h
      · intro he
        rw [he] at h
        simp [str, firstCharIs] at h
      · intro he
        rw [he] at h
        simp [str] at h
    rw [if_neg hdd]
    split
    · rename_i heq
      exfalso
      rcases List.cons_eq_cons.mp heq with ⟨hc, hcs⟩
      rcases hopt with h | h
      · rw [hc] at h
        simp [firstCharIs] at h
      · rw [hcs] at h
        simp at h
    · rename_i heq
      exact absurd heq (by simp)
    · rfl

/-- Witness for `c8_token_classification` at the bare positional token
`a`. -/
theorem c8_token_classification_witness :
    parseLoop 1 [] [str "a"] [] = parseLoop 0 [] [] ([] ++ [str "a"]) :=
  (c8_token_classification 0 [] []).2.2 (str "a") [] (by decide) (Or.inl (by decide))

/-! ## Claim C1: isSet marking -/

/-- C1.  Evaluation at the failing input: assigning a value through the
short-option path (`-f val`) sets the destination but leaves `isSet`
false — the `v.isSet = true` after the `break` of the bundle loop (source
line 747) is unreachable — while the same assignment through the long
option path (`--foo val`, source line 716) marks `isSet`.  This
contradicts the claim (and spec) that every binding assigned by either
path is marked `isSet`. -/
theorem c1_short_option_leaves_isSet_false :
    parse 9 [Var.mk (.plain .string (.str [])) (str "foo") (some 'f') none false none false]
      [str "-f", str "val"] =
      .ok ([Var.mk (.plain .string (.str (str "val"))) (str "foo") (some 'f')
        none false none false], []) ∧
    parse 9 [Var.mk (.plain .string (.str [])) (str "foo") (some 'f') none false none false]
      [str "--foo", str "val"] =
      .ok ([Var.mk (.plain .string (.str (str "val"))) (str "foo") (some 'f')
        none false none true], []) :=
  ⟨rfl, rfl⟩

/-! ## Claim C7: positional assignment and the rest binding -/

/-- C7.  Positional candidates fill the indexed bindings at 0, 1, 2, ... in
order (`indexLoop`); with a rest binding present the remaining candidates
go to it and the parse returns no leftovers, and without one they are
returned to the caller (source lines 755-786).  The general part relates
any successful positional stage to the index count of its indexed loop; the
concrete parts run the claim's instance `["x","y","z"]` against one index-0
binding with and without a rest binding. -/
theorem c7_positional_fill :
    (∀ fuel vars cands vars1 vars2 k left,
      indexLoop fuel vars cands 0 = .ok (vars1, k) →
      positionalStage fuel vars cands = .ok (vars2, left) →
      (findRest vars1 = none → left = cands.drop k) ∧
      (findRest vars1 ≠ none → left = [])) ∧
    parse 9 [c7idx0, c7rest] [str "x", str "y", str "z"] =
      .ok ([Var.mk (.plain .string (.str (str "x"))) (str "arg") none (some 0) false none true,
            Var.mk (.plain (.slice .string) (.slice [.str (str "y"), .str (str "z")]))
              (str "rest") none none true none true], []) ∧
    parse 9 [c7idx0] [str "x", str "y", str "z"] =
      .ok ([Var.mk (.plain .string (.str (str "x"))) (str "arg") none (some 0) false none true],
           [str "y", str "z"]) := by
  refine ⟨fun fuel vars cands vars1 vars2 k left hidx hpos => ?_, rfl, rfl⟩
  unfold positionalStage at hpos
  rw [hidx] at hpos
  dsimp only at hpos
  rcases hmc : missingArgCheck vars1 k with _ | e
  · rw [hmc] at hpos
    dsimp only at hpos
    rcases hfr : findRest vars1 with _ | vi
    · rw [hfr] at hpos
      cases hpos
      exact ⟨fun _ => rfl, fun hne => absurd rfl hne⟩
    · rw [hfr] at hpos
      cases hpos
      exact ⟨fun hnone => Option.noConfusion hnone, fun _ => rfl⟩
  · rw [hmc] at hpos
    dsimp only at hpos
    cases hpos

/-- Witness for `c7_positional_fill` on its own concrete instance. -/
theorem c7_positional_fill_witness : ([] : List Str) = [] :=
  (c7_positional_fill.1 5
    [c7idx0, c7rest] [str "x", str "y", str "z"]
    [Var.mk (.plain .string (.str (str "x"))) (str "arg") none (some 0) false none true, c7rest]
    [Var.mk (.plain .string (.str (str "x"))) (str "arg") none (some 0) false none true,
     Var.mk (.plain (.slice .string) (.slice [.str (str "y"), .str (str "z")]))
       (str "rest") none none true none true]
    1 [] rfl rfl).2 (by decide)

/-! ## Claim C2: boolean long options without a glued value -/

/-- `strings.IndexByte` steps over a non-matching head character. -/
theorem idxOf_cons_ne (x c : Char) (s : Str) (h : ¬ x = c) :
    idxOf (x :: s) c = (idxOf s c).map (· + 1) := by
  simp [idxOf, List.indexOf?, List.findIdx?_cons, h]

/-- C2, counterexample.  The claim says `--b` with a boolean destination
sets the destination true and never consumes the following token.  In
fact, for `["--b", "false"]` the token `false` is consumed as the value
(no leftover) and the destination ends up `false`, not `true`: the scan
first tries `strconv.ParseBool` on the following tokens (source lines
691-716 feeding `scanVar`, bool fallback at lines 869-874). -/
theorem c2_counterexample :
    parse 9 [Var.mk (.plain .bool (.bool false)) (str "b") none none false none false]
      [str "--b", str "false"] =
      .ok ([Var.mk (.plain .bool (.bool false)) (str "b") none none false none true], []) :=
  rfl

/-- C2, amended.  A boolean long option with no glued `=value` first lets
the scanner try the following tokens: when no token follows, or the next
token does not parse as a boolean literal, the destination is set true and
nothing is consumed; but when the next token parses as a boolean literal,
that token is consumed and its parsed value stored. -/
theorem c2_bool_long_option (fuel : Nat) (vars : List Var) (name : Str) (tail acc : List Str)
    (vi : Nat) (b : Value)
    (hname : name ≠ []) (heq : idxOf name '=' = none) (hpath : idxDotBracket name = none)
    (hfind : findName vars name = some vi)
    (hdest : (vars.getD vi Var.dummy).dest = .plain .bool b) :
    (tail = [] → parseLoop (fuel + 3) vars (('-' :: '-' :: name) :: tail) acc =
      parseLoop (fuel + 2)
        (vars.set vi { vars.getD vi Var.dummy with dest := .plain .bool (.bool true), isSet := true })
        [] acc) ∧
    (∀ t rest bv, tail = t :: rest → goParseBool t = some bv →
      parseLoop (fuel + 3) vars (('-' :: '-' :: name) :: tail) acc =
      parseLoop (fuel + 2)
        (vars.set vi { vars.getD vi Var.dummy with dest := .plain .bool (.bool bv), isSet := true })
        rest acc) ∧
    (∀ t rest, tail = t :: rest → goParseBool t = none →
      parseLoop (fuel + 3) vars (('-' :: '-' :: name) :: tail) acc =
      parseLoop (fuel + 2)
        (vars.set vi { vars.getD vi Var.dummy with dest := .plain .bool (.bool true), isSet := true })
        (t :: rest) acc) := by
  have hdd : ¬(('-' :: '-' :: name) = str "--") := by
    intro h
    have := List.cons_eq_cons.mp h
    have := List.cons_eq_cons.mp this.2
    exact hname this.2
  have harg : idxOf ('-' :: '-' :: name) '=' = none := by
    rw [idxOf_cons_ne _ _ _ (by decide), idxOf_cons_ne _ _ _ (by decide), heq]
    rfl
  refine ⟨fun htail => ?_, fun t rest bv htail hbool => ?_, fun t rest htail hbool => ?_⟩
  · subst htail
    simp only [parseLoop, if_neg hdd, harg, hfind, hdest, scanVarF, hpath, scanF,
      List.drop_succ_cons, List.drop_zero, ite_true, Option.isSome_none, Bool.false_eq_true,
      false_and, ite_false, and_true, if_false, List.drop_nil, Nat.sub_zero]
  · subst htail
    simp only [parseLoop, if_neg hdd, harg, hfind, hdest, scanVarF, hpath, scanF, hbool,
      List.drop_succ_cons, List.drop_zero, ite_true, Option.isSome_none, Bool.false_eq_true,
      false_and, ite_false, and_true, if_false, List.drop_nil, Nat.sub_zero]
  · subst htail
    simp only [parseLoop, if_neg hdd, harg, hfind, hdest, scanVarF, hpath, scanF, hbool,
      List.drop_succ_cons, List.drop_zero, ite_true, Option.isSome_none, Bool.false_eq_true,
      false_and, ite_false, and_true, if_false, List.drop_nil, Nat.sub_zero]

/-- Witness for `c2_bool_long_option`: `--b false` consumes and stores
`false`. -/
theorem c2_bool_long_option_witness :
    parseLoop 8 [c2var] (('-' :: '-' :: str "b") :: [str "false"]) [] =
    parseLoop 7 ([c2var].set 0
      { [c2var].getD 0 Var.dummy with dest := .plain .bool (.bool false), isSet := true }) [] [] :=
  (c2_bool_long_option 5 [c2var] (str "b") [str "false"] [] 0 (.bool false)
    (by decide) (by decide) (by decide) (by decide) rfl).2.1 (str "false") [] false rfl rfl

/-! ## Claim C6: glued versus separate short-option values -/

/-- A successful `truncGo` over a non-empty input consumes at least one
token. -/
theorem truncGo_some_ne_nil (s : List Str) : ∀ levels done c r fl,
    truncGo levels done s = (some c, r, fl) → done ++ s ≠ [] → c ≠ [] := by
  induction s with
  | nil =>
    intro levels done c r fl h hne
    simp only [truncGo] at h
    split at h
    · cases h
      simp only [List.append_nil] at hne
      intro htake
      rcases done with _ | ⟨d, ds⟩
      · exact hne rfl
      · simp [List.take] at htake
    · cases h
  | cons item rest ih =>
    intro levels done c r fl h hne
    simp only [truncGo] at h
    split at h
    · cases h
    · split at h
      · cases h; simp
      · cases h; simp
    · exact ih _ _ _ _ _ h (by simp)

/-- A successful `truncEnd` over a non-empty input consumes at least one
token. -/
theorem truncEnd_some_ne_nil (s : List Str) (c r : List Str) (fl : Bool)
    (hs : s ≠ []) (h : truncEnd s = (some c, r, fl)) : c ≠ [] := by
  unfold truncEnd at h
  rw [if_neg hs] at h
  exact truncGo_some_ne_nil s [] [] c r fl h (by simpa using hs)

/-- Dropping up to a found character position leaves that character at the
head. -/
theorem idxOf_drop_firstChar (c : Char) (s : Str) : ∀ i, idxOf s c = some i →
    firstCharIs (s.drop i) c = true := by
  induction s with
  | nil => intro i h; simp [idxOf, List.indexOf?] at h
  | cons x xs ih =>
    intro i h
    replace h : (x :: xs).indexOf? c = some i := h
    rw [List.indexOf?_cons] at h
    by_cases hx : (x == c) = true
    · rw [if_pos hx] at h
      cases h
      simp only [List.drop_zero, firstCharIs]
      simpa using hx
    · rw [if_neg hx] at h
      rcases hfind : xs.indexOf? c with _ | j
      · rw [hfind] at h; cases h
      · rw [hfind] at h
        replace h : some (Nat.succ j) = some i := h
        cases h
        simpa using ih j hfind

/-- A token with a known first character is not empty. -/
theorem firstCharIs_ne_nil (x : Str) (c : Char) (h : firstCharIs x c = true) : x ≠ [] := by
  cases x <;> simp [firstCharIs] at h ⊢

/-- In comma mode, the element loop of the array/slice scanner reports at
least one consumed token whenever it succeeds, provided it either already
counted one, sits at the start with a non-empty head token, or sits at a
comma-led head (the loop invariant of source lines 989-1038). -/
theorem elemLoop_consumes (t : CTyp) (ek : Kind) : ∀ fuel,
    (∀ s j n acc n' j' acc',
      scanF fuel (.elems t ek true s j n acc) = .ok (.elems n' j' acc') →
      (1 ≤ n ∨ (j = 0 ∧ s.headD [] ≠ []) ∨ firstCharIs (s.headD []) ',' = true) →
      1 ≤ n') ∧
    (∀ s j n acc n' j' acc',
      scanF fuel (.elemVal t ek true s j n acc) = .ok (.elems n' j' acc') →
      (1 ≤ n ∨ (j = 0 ∧ s.headD [] ≠ []) ∨ (j ≠ 0 ∧ s ≠ [])) →
      1 ≤ n') := by
  intro fuel
  induction fuel with
  | zero =>
    constructor <;> (intro s j n acc n' j' acc' h _; simp [scanF] at h)
  | succ fuel ih =>
    constructor
    · intro s j n acc n' j' acc' h hinv
      simp only [scanF] at h
      split at h
      · -- comma-consumption phase (j ≠ 0)
        rename_i hcond
        have hj : j ≠ 0 := by
          rcases hcond with ⟨hj, _⟩
          exact hj
        -- when the invariant rests on a comma-led head, no empty tokens are
        -- skipped and the head survives the drop
        have hskip : 1 ≤ n ∨
            ((s.takeWhile List.isEmpty).length = 0 ∧ s ≠ [] ∧
              firstCharIs (s.headD []) ',' = true) := by
          rcases hinv with h1 | h2 | h3
          · exact Or.inl h1
          · exact absurd h2.1 hj
          · rcases s with _ | ⟨x, xs⟩
            · simp [firstCharIs] at h3
            · refine Or.inr ⟨?_, by simp, h3⟩
              have hx : x.isEmpty = false := by
                rcases x with _ | _
                · simp [firstCharIs] at h3
                · simp
              simp [List.takeWhile_cons, hx]
        split at h
        · -- s.drop skipped = []
          rename_i hdrop
          cases h
          rcases hskip with h1 | ⟨h2, hne, _⟩
          · omega
          · rw [h2, List.drop_zero] at hdrop
            exact absurd hdrop hne
        · -- s.drop skipped = tok :: rest
          rename_i tok rest hdrop
          split at h
          · -- break: head is not a comma
            rename_i hnotc
            cases h
            rcases hskip with h1 | ⟨h2, hne, hc⟩
            · omega
            · exfalso
              rw [h2, List.drop_zero] at hdrop
              rw [hdrop] at hc
              simp only [List.headD_cons] at hc
              exact hnotc hc
          · split at h
            · exact ih.2 _ _ _ _ _ _ _ h (Or.inl (by omega))
            · exact ih.2 _ _ _ _ _ _ _ h (Or.inr (Or.inr ⟨hj, by simp⟩))
      · -- pass-through (j = 0)
        rename_i hcond
        have hj : j = 0 := by
          by_contra hne
          exact hcond ⟨hne, trivial⟩
        refine ih.2 s j n acc n' j' acc' h ?_
        rcases hinv with h1 | h2 | h3
        · exact Or.inl h1
        · exact Or.inr (Or.inl h2)
        · exact Or.inr (Or.inl ⟨hj, firstCharIs_ne_nil _ _ h3⟩)
    · intro s j n acc n' j' acc' h hinv
      simp only [scanF] at h
      rcases s with _ | ⟨tok, rest⟩
      · dsimp only at h
        split at h
        · -- break (comma false or j = 0; here j = 0)
          cases h
          rcases hinv with h1 | h2 | h3
          · exact h1
          · simp at h2
          · exact absurd h3.2 (by simp)
        · rename_i hc
          have hj : j ≠ 0 := by
            intro hj0
            exact hc (Or.inr hj0)
          have hn : 1 ≤ n := by
            rcases hinv with h1 | h2 | h3
            · exact h1
            · simp at h2
            · exact absurd h3.2 (by simp)
          rcases hscan : scanF fuel (.value ek ek.zero [[]]) with e | cr
          · rw [hscan] at h
            exact absurd h (by simp)
          · rcases cr with ⟨val, n1⟩ | ⟨n1, j1, acc1⟩ | ⟨es1⟩ | ⟨vs1⟩ <;>
              rw [hscan] at h <;> dsimp only at h
            · exact ih.1 _ _ _ _ _ _ _ h (Or.inl hn)
            · exact absurd h (by simp)
            · exact absurd h (by simp)
            · exact absurd h (by simp)
      · dsimp only at h
        split at h
        · -- bracket start in comma mode: error
          rw [if_pos trivial] at h
          simp at h
        · simp only [ite_true] at h
          rcases hidx : idxOf tok ',' with _ | idx
          · rw [hidx] at h
            dsimp only at h
            rcases hscan : scanF fuel (.value ek ek.zero [tok]) with e | cr
            · rw [hscan] at h
              exact absurd h (by simp)
            · rcases cr with ⟨val, n1⟩ | ⟨n1, j1, acc1⟩ | ⟨es1⟩ | ⟨vs1⟩ <;>
                rw [hscan] at h <;> dsimp only at h
              · exact ih.1 _ _ _ _ _ _ _ h (Or.inl (by omega))
              · exact absurd h (by simp)
              · exact absurd h (by simp)
              · exact absurd h (by simp)
          · rw [hidx] at h
            dsimp only at h
            rcases hscan : scanF fuel (.value ek ek.zero [tok.take idx]) with e | cr
            · rw [hscan] at h
              exact absurd h (by simp)
            · rcases cr with ⟨val, n1⟩ | ⟨n1, j1, acc1⟩ | ⟨es1⟩ | ⟨vs1⟩ <;>
                rw [hscan] at h <;> dsimp only at h
              · refine ih.1 _ _ _ _ _ _ _ h (Or.inr (Or.inr ?_))
                simp only [List.headD_cons]
                exact idxOf_drop_firstChar ',' tok idx hidx
              · exact absurd h (by simp)
              · exact absurd h (by simp)
              · exact absurd h (by simp)

/-- The element loop never decreases the consumed-token count. -/
theorem elemLoop_mono : ∀ fuel,
    (∀ t ek comma s j n acc n' j' acc',
      scanF fuel (.elems t ek comma s j n acc) = .ok (.elems n' j' acc') → n ≤ n') ∧
    (∀ t ek comma s j n acc n' j' acc',
      scanF fuel (.elemVal t ek comma s j n acc) = .ok (.elems n' j' acc') → n ≤ n') := by
  intro fuel
  induction fuel with
  | zero =>
    constructor <;> (intro t ek comma s j n acc n' j' acc' h; simp [scanF] at h)
  | succ fuel ih =>
    constructor
    · intro t ek comma s j n acc n' j' acc' h
      simp only [scanF] at h
      split at h
      · split at h
        · cases h; omega
        · split at h
          · cases h; omega
          · split at h
            · have := ih.2 _ _ _ _ _ _ _ _ _ _ h
              omega
            · have := ih.2 _ _ _ _ _ _ _ _ _ _ h
              omega
      · exact ih.2 _ _ _ _ _ _ _ _ _ _ h
    · intro t ek comma s j n acc n' j' acc' h
      simp only [scanF] at h
      rcases s with _ | ⟨tok, rest⟩
      · dsimp only at h
        split at h
        · cases h; omega
        · rcases hscan : scanF fuel (.value ek ek.zero [[]]) with e | cr
          · rw [hscan] at h
            exact absurd h (by simp)
          · rcases cr with ⟨val, n1⟩ | ⟨n1, j1, acc1⟩ | ⟨es1⟩ | ⟨vs1⟩ <;>
              rw [hscan] at h <;> dsimp only at h
            · exact ih.1 _ _ _ _ _ _ _ _ _ _ h
            · exact absurd h (by simp)
            · exact absurd h (by simp)
            · exact absurd h (by simp)
      · dsimp only at h
        split at h
        · split at h
          · simp at h
          · rcases htr : truncEnd (tok :: rest) with ⟨copt, rem, fl⟩
            rw [htr] at h
            rcases copt with _ | con <;> dsimp only at h
            · simp at h
            · split at h
              · simp at h
              · rcases hscan : scanF fuel (.value ek ek.zero con) with e | cr
                · rw [hscan] at h
                  exact absurd h (by simp)
                · rcases cr with ⟨val, n1⟩ | ⟨n1, j1, acc1⟩ | ⟨es1⟩ | ⟨vs1⟩ <;>
                    rw [hscan] at h <;> dsimp only at h
                  · exact ih.1 _ _ _ _ _ _ _ _ _ _ h
                  · exact absurd h (by simp)
                  · exact absurd h (by simp)
                  · exact absurd h (by simp)
        · rcases hif : (if comma then idxOf tok ',' else none) with _ | idx <;> rw [hif] at h <;>
            dsimp only at h
          · rcases hscan : scanF fuel (.value ek ek.zero [tok]) with e | cr
            · rw [hscan] at h
              exact absurd h (by simp)
            · rcases cr with ⟨val, n1⟩ | ⟨n1, j1, acc1⟩ | ⟨es1⟩ | ⟨vs1⟩ <;>
                rw [hscan] at h <;> dsimp only at h
              · have := ih.1 _ _ _ _ _ _ _ _ _ _ h
                split at this <;> omega
              · exact absurd h (by simp)
              · exact absurd h (by simp)
              · exact absurd h (by simp)
          · rcases hscan : scanF fuel (.value ek ek.zero [tok.take idx]) with e | cr
            · rw [hscan] at h
              exact absurd h (by simp)
            · rcases cr with ⟨val, n1⟩ | ⟨n1, j1, acc1⟩ | ⟨es1⟩ | ⟨vs1⟩ <;>
                rw [hscan] at h <;> dsimp only at h
              · exact ih.1 _ _ _ _ _ _ _ _ _ _ h
              · exact absurd h (by simp)
              · exact absurd h (by simp)
              · exact absurd h (by simp)

/-- A successful `scanValue` whose first token is non-empty consumes at
least one token, for every destination kind. -/
theorem scanValue_consumes (fuel : Nat) (k : Kind) (v : Value) (V : Str) (tail : List Str)
    (v' : Value) (n : Nat)
    (h : scanF fuel (.value k v (V :: tail)) = .ok (.value v' n)) (hV : V ≠ []) : 1 ≤ n := by
  rcases fuel with _ | fuel
  · simp [scanF] at h
  rcases k with _ | _ | w | w | w | ⟨alen, ek⟩ | ek | ⟨kk, kv⟩ | fs <;>
    simp only [scanF] at h
  · cases h; omega
  · split at h
    · cases h; omega
    · simp at h
  · split at h
    · cases h; omega
    · simp at h
  · split at h
    · cases h; omega
    · simp at h
  · split at h
    · cases h; omega
    · simp at h
  · -- array
    rw [if_neg hV] at h
    split at h
    · rcases hscan : scanF fuel (.elems .array ek true (V :: tail) 0 0 []) with e | cr
      · rw [hscan] at h
        exact absurd h (by simp)
      · rcases cr with ⟨val, n1⟩ | ⟨n1, j1, acc1⟩ | ⟨es1⟩ | ⟨vs1⟩ <;>
          rw [hscan] at h <;> dsimp only at h
        · exact absurd h (by simp)
        · split at h
          · simp at h
          · cases h
            refine (elemLoop_consumes .array ek fuel).1 _ _ _ _ _ _ _ hscan ?_
            exact Or.inr (Or.inl ⟨rfl, by simpa using hV⟩)
        · exact absurd h (by simp)
        · exact absurd h (by simp)
    · rcases htr : truncEnd (V :: tail) with ⟨copt, rem, fl⟩
      rw [htr] at h
      rcases copt with _ | con <;> dsimp only at h
      · simp at h
      · split at h
        · simp at h
        · rename_i hfl
          have hcon : con ≠ [] := truncEnd_some_ne_nil _ _ _ _ (by simp) htr
          rcases hscan : scanF fuel (.elems .array ek false (stripBrackets con) 0 con.length []) with e | cr
          · rw [hscan] at h
            exact absurd h (by simp)
          · rcases cr with ⟨val, n1⟩ | ⟨n1, j1, acc1⟩ | ⟨es1⟩ | ⟨vs1⟩ <;>
              rw [hscan] at h <;> dsimp only at h
            · exact absurd h (by simp)
            · split at h
              · simp at h
              · cases h
                have hmono := (elemLoop_mono fuel).1 _ _ _ _ _ _ _ _ _ _ hscan
                have : 1 ≤ con.length := by
                  rcases con with _ | _
                  · exact absurd rfl hcon
                  · simp
                omega
            · exact absurd h (by simp)
            · exact absurd h (by simp)
  · -- slice
    rw [if_neg hV] at h
    split at h
    · generalize hcur : (match v with | Value.slice es => es | _ => ([] : List Value)) = cur at h
      rcases hscan : scanF fuel (.elems .slice ek true (V :: tail) 0 0 cur) with e | cr
      · rw [hscan] at h
        exact absurd h (by simp)
      · rcases cr with ⟨val, n1⟩ | ⟨n1, j1, acc1⟩ | ⟨es1⟩ | ⟨vs1⟩ <;>
          rw [hscan] at h <;> dsimp only at h
        · exact absurd h (by simp)
        · cases h
          refine (elemLoop_consumes .slice ek fuel).1 _ _ _ _ _ _ _ hscan ?_
          exact Or.inr (Or.inl ⟨rfl, by simpa using hV⟩)
        · exact absurd h (by simp)
        · exact absurd h (by simp)
    · rcases htr : truncEnd (V :: tail) with ⟨copt, rem, fl⟩
      rw [htr] at h
      rcases copt with _ | con <;> dsimp only at h
      · simp at h
      · split at h
        · simp at h
        · rename_i hfl
          have hcon : con ≠ [] := truncEnd_some_ne_nil _ _ _ _ (by simp) htr
          generalize hcur : (match v with | Value.slice es => es | _ => ([] : List Value)) = cur at h
          rcases hscan : scanF fuel (.elems .slice ek false (stripBrackets con) 0 con.length cur) with e | cr
          · rw [hscan] at h
            exact absurd h (by simp)
          · rcases cr with ⟨val, n1⟩ | ⟨n1, j1, acc1⟩ | ⟨es1⟩ | ⟨vs1⟩ <;>
              rw [hscan] at h <;> dsimp only at h
            · exact absurd h (by simp)
            · cases h
              have hmono := (elemLoop_mono fuel).1 _ _ _ _ _ _ _ _ _ _ hscan
              have : 1 ≤ con.length := by
                rcases con with _ | _
                · exact absurd rfl hcon
                · simp
              omega
            · exact absurd h (by simp)
            · exact absurd h (by simp)
  · -- map
    rw [if_neg hV] at h
    split at h
    · exact absurd h (by simp)
    · rcases htr : truncEnd (V :: tail) with ⟨copt, rem, fl⟩
      rw [htr] at h
      rcases copt with _ | con <;> dsimp only at h
      · simp at h
      · split at h
        · simp at h
        · have hcon : con ≠ [] := truncEnd_some_ne_nil _ _ _ _ (by simp) htr
          generalize hcur : (match v with | Value.map es => es | _ => ([] : List (Value × Value))) = cur at h
          rcases hscan : scanF fuel (.mapc kk kv cur (stripBrackets con)) with e | cr
          · rw [hscan] at h
            exact absurd h (by simp)
          · rcases cr with ⟨val, n1⟩ | ⟨n1, j1, acc1⟩ | ⟨es1⟩ | ⟨vs1⟩ <;>
              rw [hscan] at h <;> dsimp only at h
            · exact absurd h (by simp)
            · exact absurd h (by simp)
            · cases h
              rcases con with _ | _
              · exact absurd rfl hcon
              · simp
            · exact absurd h (by simp)
  · -- struct
    rw [if_neg hV] at h
    split at h
    · exact absurd h (by simp)
    · rcases htr : truncEnd (V :: tail) with ⟨copt, rem, fl⟩
      rw [htr] at h
      rcases copt with _ | con <;> dsimp only at h
      · simp at h
      · split at h
        · simp at h
        · have hcon : con ≠ [] := truncEnd_some_ne_nil _ _ _ _ (by simp) htr
          generalize hcur : (match v with | Value.strct vs => vs | _ => ([] : List Value)) = cur at h
          rcases hscan : scanF fuel (.strc (fs.zip cur) [] (stripBrackets con)) with e | cr
          · rw [hscan] at h
            exact absurd h (by simp)
          · rcases cr with ⟨val, n1⟩ | ⟨n1, j1, acc1⟩ | ⟨es1⟩ | ⟨vs1⟩ <;>
              rw [hscan] at h <;> dsimp only at h
            · exact absurd h (by simp)
            · exact absurd h (by simp)
            · exact absurd h (by simp)
            · cases h
              rcases con with _ | _
              · exact absurd rfl hcon
              · simp

/-- A successful `scanVar` on a plain non-boolean destination with a plain
single-character name and a non-empty first token consumes at least one
token (the boolean zero-consumption fallback of lines 869-874 is the only
other exit). -/
theorem scanVar_plain_consumes (fuel : Nat) (k : Kind) (vv : Value) (c : Char)
    (V : Str) (tail : List Str) (d' : Dest) (n : Nat)
    (h : scanVarF fuel (.plain k vv) [c] (V :: tail) = .ok (d', n))
    (hk : k ≠ .bool) (hpath : idxDotBracket [c] = none) (hV : V ≠ []) : 1 ≤ n := by
  rcases fuel with _ | fuel
  · simp [scanVarF] at h
  simp only [scanVarF, hpath] at h
  rcases hscan : scanF fuel (.value k vv (V :: tail)) with e | cr
  · rw [hscan] at h
    dsimp only at h
    rcases k with _ | _ | w | w | w | ⟨alen, ek⟩ | ek | ⟨kk, kv⟩ | fs
    · simp at h
    · exact absurd rfl hk
    all_goals simp at h
  · rcases cr with ⟨val, n1⟩ | ⟨n1, j1, acc1⟩ | ⟨es1⟩ | ⟨vs1⟩ <;> rw [hscan] at h <;>
      dsimp only at h
    · cases h
      exact scanValue_consumes _ _ _ _ _ _ _ hscan hV
    · simp at h
    · simp at h
    · simp at h

/-- C6, amended.  For a short-option binding `c` with a plain non-boolean
destination and every NON-EMPTY value `V` not beginning with `=`, the three
argument forms `-cV` (glued), `-c=V` (glued with equals) and `-c V`
(separate token) hand the scanner the same token list `V :: tail` and
advance the cursor identically, so the whole parse continues in the same
state: same destination value, same leftovers, same success or failure
(source lines 717-749). -/
theorem c6_value_form_equivalence (vars : List Var) (c : Char) (vi : Nat) (k : Kind) (vv : Value)
    (V : Str)
    (hfind : findShort vars c = some vi)
    (hdest : (vars.getD vi Var.dummy).dest = .plain k vv)
    (hk : k ≠ .bool) (hcd : c ≠ '-') (hpath : idxDotBracket [c] = none)
    (hV : V ≠ []) (hVeq : firstCharIs V '=' = false) :
    ∀ fuel tail acc,
      parseLoop (fuel + 1) vars (('-' :: c :: V) :: tail) acc =
        parseLoop (fuel + 1) vars (['-', c] :: V :: tail) acc ∧
      parseLoop (fuel + 1) vars (('-' :: c :: '=' :: V) :: tail) acc =
        parseLoop (fuel + 1) vars (['-', c] :: V :: tail) acc := by
  intro fuel tail acc
  have hddA : ¬(('-' :: c :: V) = str "--") := by
    intro he
    rcases List.cons_eq_cons.mp he with ⟨_, h2⟩
    rcases List.cons_eq_cons.mp h2 with ⟨hc, _⟩
    exact hcd hc
  have hddB : ¬(('-' :: c :: '=' :: V) = str "--") := by
    intro he
    rcases List.cons_eq_cons.mp he with ⟨_, h2⟩
    rcases List.cons_eq_cons.mp h2 with ⟨hc, _⟩
    exact hcd hc
  have hddC : ¬((['-', c] : Str) = str "--") := by
    intro he
    rcases List.cons_eq_cons.mp he with ⟨_, h2⟩
    rcases List.cons_eq_cons.mp h2 with ⟨hc, _⟩
    exact hcd hc
  have hglued : (!V.isEmpty) = true := by
    rcases V with _ | _
    · exact absurd rfl hV
    · simp
  -- evaluate the bundle step of each of the three forms down to the shared
  -- scanVarF call
  have hA : shortLoop fuel vars (c :: V) tail =
      (match scanVarF fuel (vars.getD vi Var.dummy).dest [c] (V :: tail) with
       | .error e => .error (.shortErr c e)
       | .ok (d', n) =>
         if n = 0 then shortLoop fuel (vars.set vi { vars.getD vi Var.dummy with dest := d' }) V tail
         else .ok (vars.set vi { vars.getD vi Var.dummy with dest := d' }, n - 1)) := by
    simp only [shortLoop, hfind, hVeq, hglued, Bool.false_eq_true, if_false, ite_true,
      eq_self_iff_true, if_true]
  have hB : shortLoop fuel vars (c :: '=' :: V) tail =
      (match scanVarF fuel (vars.getD vi Var.dummy).dest [c] (V :: tail) with
       | .error e => .error (.shortErr c e)
       | .ok (d', n) =>
         if n = 0 then shortLoop fuel (vars.set vi { vars.getD vi Var.dummy with dest := d' }) ('=' :: V) tail
         else .ok (vars.set vi { vars.getD vi Var.dummy with dest := d' }, n - 1)) := by
    simp [shortLoop, hfind, hglued, firstCharIs]
  have hC : shortLoop fuel vars [c] (V :: tail) =
      (match scanVarF fuel (vars.getD vi Var.dummy).dest [c] (V :: tail) with
       | .error e => .error (.shortErr c e)
       | .ok (d', n) =>
         if n = 0 then shortLoop fuel (vars.set vi { vars.getD vi Var.dummy with dest := d' }) [] (V :: tail)
         else .ok (vars.set vi { vars.getD vi Var.dummy with dest := d' }, n)) := by
    simp [shortLoop, hfind, firstCharIs]
  constructor
  · simp only [parseLoop, if_neg hddA, if_neg hddC, if_neg hcd, List.drop_succ_cons,
      List.drop_zero, hA, hC]
    rcases hscan : scanVarF fuel (vars.getD vi Var.dummy).dest [c] (V :: tail) with e | ⟨d', n⟩
    · rfl
    · rw [hdest] at hscan
      have hn := scanVar_plain_consumes fuel k vv c V tail d' n hscan hk hpath hV
      dsimp only
      rw [if_neg (by omega), if_neg (by omega)]
      dsimp only
      obtain ⟨m, rfl⟩ : ∃ m, n = m + 1 := ⟨n - 1, by omega⟩
      simp [List.drop_succ_cons]
  · simp only [parseLoop, if_neg hddB, if_neg hddC, if_neg hcd, List.drop_succ_cons,
      List.drop_zero, hB, hC]
    rcases hscan : scanVarF fuel (vars.getD vi Var.dummy).dest [c] (V :: tail) with e | ⟨d', n⟩
    · rfl
    · rw [hdest] at hscan
      have hn := scanVar_plain_consumes fuel k vv c V tail d' n hscan hk hpath hV
      dsimp only
      rw [if_neg (by omega), if_neg (by omega)]
      dsimp only
      obtain ⟨m, rfl⟩ : ∃ m, n = m + 1 := ⟨n - 1, by omega⟩
      simp [List.drop_succ_cons]

/-- C6, counterexample.  With the empty value `V = ""` (which the claim's
quantifier admits: it contains no leading `=`), the three forms diverge:
`-c` and `-c=` with a following token `5` scan the `5` (success, c = 5),
while the separate form passes the explicit empty token to the integer
scanner, which rejects it.  Same binding, same value string, different
outcomes — refuting the claim as stated. -/
theorem c6_counterexample :
    parse 9 [c6var] [str "-c", str "5"] =
      .ok ([Var.mk (.plain (.int .i) (.int .i 5)) (str "c") (some 'c') none false none false], []) ∧
    parse 9 [c6var] [str "-c=", str "5"] =
      .ok ([Var.mk (.plain (.int .i) (.int .i 5)) (str "c") (some 'c') none false none false], []) ∧
    parse 9 [c6var] [str "-c", str "", str "5"] = .error (.shortErr 'c' (.invalidInt [])) :=
  ⟨rfl, rfl, rfl⟩

/-- Witness for `c6_value_form_equivalence` at `-c5` versus `-c 5`. -/
theorem c6_value_form_equivalence_witness :
    parseLoop 5 [c6var] [str "-c5"] [] = parseLoop 5 [c6var] [str "-c", str "5"] [] ∧
    parseLoop 5 [c6var] [str "-c=5"] [] = parseLoop 5 [c6var] [str "-c", str "5"] [] :=
  c6_value_form_equivalence [c6var] 'c' 0 (.int .i) (.int .i 0) (str "5")
    rfl rfl (fun h => Kind.noConfusion h) (by decide) rfl (by decide) rfl 4 [] []

/-! ## Claim C5: idempotence of parse -/



theorem eraseSet_dummy : eraseSet Var.dummy = Var.dummy := rfl

theorem set_getD_self (l : List α) : ∀ (i : Nat) (d : α), l.set i (l.getD i d) = l := by
  induction l with
  | nil => intro i d; rfl
  | cons a l ih =>
    intro i d
    cases i with
    | zero => rfl
    | succ j => simp only [List.set, List.getD, List.getElem?_cons_succ]
                exact congrArg (a :: ·) (ih j d)

theorem findIdx?_erase_congr (p : Var → Bool) (hp : ∀ v, p (eraseSet v) = p v) :
    ∀ (vs ws : List Var), vs.map eraseSet = ws.map eraseSet →
    ∀ i, List.findIdx? p vs i = List.findIdx? p ws i := by
  intro vs
  induction vs with
  | nil =>
    intro ws h i
    cases ws with
    | nil => rfl
    | cons w ws' => simp [List.map] at h
  | cons v vs ih =>
    intro ws h i
    cases ws with
    | nil => simp [List.map] at h
    | cons w ws' =>
      simp only [List.map, List.cons.injEq] at h
      obtain ⟨h1, h2⟩ := h
      rw [List.findIdx?_cons, List.findIdx?_cons, ← hp v, ← hp w, h1]
      by_cases hc : p (eraseSet w)
      · simp [hc]
      · simp only [hc, if_false]
        exact ih ws' h2 (i + 1)

theorem find?_erase_congr (p : Var → Bool) (hp : ∀ v, p (eraseSet v) = p v) :
    ∀ (vs ws : List Var), vs.map eraseSet = ws.map eraseSet →
    (vs.find? p).map eraseSet = (ws.find? p).map eraseSet := by
  intro vs
  induction vs with
  | nil =>
    intro ws h
    cases ws with
    | nil => rfl
    | cons w ws' => simp [List.map] at h
  | cons v vs ih =>
    intro ws h
    cases ws with
    | nil => simp [List.map] at h
    | cons w ws' =>
      simp only [List.map, List.cons.injEq] at h
      obtain ⟨h1, h2⟩ := h
      by_cases hc : p w
      · have hcv : p v = true := by rw [← hp v, h1, hp w]; exact hc
        rw [List.find?_cons_of_pos _ hcv, List.find?_cons_of_pos _ hc]
        show some (eraseSet v) = some (eraseSet w)
        exact congrArg some h1
      · have hcv : ¬ p v = true := by rw [← hp v, h1, hp w]; exact hc
        rw [List.find?_cons_of_neg _ hcv, List.find?_cons_of_neg _ hc]
        exact ih ws' h2

theorem getD_erase_congr (vs ws : List Var) (h : vs.map eraseSet = ws.map eraseSet) (i : Nat) :
    eraseSet (vs.getD i Var.dummy) = eraseSet (ws.getD i Var.dummy) := by
  rw [← List.getD_map vs Var.dummy eraseSet, ← List.getD_map ws Var.dummy eraseSet, h]

theorem findShort_erase_congr (vs ws : List Var) (h : vs.map eraseSet = ws.map eraseSet)
    (c : Char) : findShort vs c = findShort ws c :=
  findIdx?_erase_congr (fun v => v.short = some c) (fun _ => rfl) vs ws h 0

theorem findName_erase_congr (vs ws : List Var) (h : vs.map eraseSet = ws.map eraseSet)
    (name : Str) : findName vs name = findName ws name := by
  unfold findName
  by_cases hn : name = []
  · simp [hn]
  · simp only [hn, if_false]
    refine findIdx?_erase_congr _ ?_ vs ws h 0
    intro v
    rfl

theorem findIndex_erase_congr (vs ws : List Var) (h : vs.map eraseSet = ws.map eraseSet)
    (i : Nat) : findIndex vs i = findIndex ws i :=
  findIdx?_erase_congr (fun v => v.index = some i) (fun _ => rfl) vs ws h 0

theorem findRest_erase_congr (vs ws : List Var) (h : vs.map eraseSet = ws.map eraseSet) :
    findRest vs = findRest ws :=
  findIdx?_erase_congr (fun v => v.rest) (fun _ => rfl) vs ws h 0

theorem missingArgCheck_erase_congr (vs ws : List Var)
    (h : vs.map eraseSet = ws.map eraseSet) (i : Nat) :
    missingArgCheck vs i = missingArgCheck ws i := by
  unfold missingArgCheck
  have hf := find?_erase_congr
    (fun v => match v.index with
      | some j => i ≤ j && v.defaultVal.isNone
      | none => false) (fun _ => rfl) vs ws h
  rcases hv : List.find? _ vs with _ | v <;> rcases hw : List.find? _ ws with _ | w
  · rfl
  · rw [hv, hw] at hf; exact absurd hf (by simp)
  · rw [hv, hw] at hf; exact absurd hf (by simp)
  · rw [hv, hw] at hf
    replace hf : some (eraseSet v) = some (eraseSet w) := hf
    have hvw : eraseSet v = eraseSet w := Option.some.inj hf
    have hname := congrArg Var.name hvw
    dsimp only
    rw [show v.name = w.name from hname]

theorem eraseSet_dest (v w : Var) (hvw : eraseSet v = eraseSet w) : v.dest = w.dest :=
  show (eraseSet v).dest = (eraseSet w).dest from congrArg Var.dest hvw

theorem eraseSet_update_congr (v w : Var) (hvw : eraseSet v = eraseSet w) (d' : Dest)
    (b b' : Bool) :
    eraseSet { v with dest := d', isSet := b } = eraseSet { w with dest := d', isSet := b' } := by
  have h1 := congrArg Var.name hvw
  have h2 := congrArg Var.short hvw
  have h3 := congrArg Var.index hvw
  have h4 := congrArg Var.rest hvw
  have h5 := congrArg Var.defaultVal hvw
  show Var.mk d' v.name v.short v.index v.rest v.defaultVal false =
    Var.mk d' w.name w.short w.index w.rest w.defaultVal false
  rw [show v.name = w.name from h1, show v.short = w.short from h2,
    show v.index = w.index from h3, show v.rest = w.rest from h4,
    show v.defaultVal = w.defaultVal from h5]

theorem map_eraseSet_set_congr (vs ws : List Var) (h : vs.map eraseSet = ws.map eraseSet)
    (vi : Nat) (u u' : Var) (hu : eraseSet u = eraseSet u') :
    (vs.set vi u).map eraseSet = (ws.set vi u').map eraseSet := by
  rw [List.map_set, List.map_set, h, hu]

theorem eraseSet_setOpt_congr (v w : Var) (hvw : eraseSet v = eraseSet w) (x : Value) :
    eraseSet ((v.set x).getD v) = eraseSet ((w.set x).getD w) := by
  unfold Var.set
  rw [show v.dest = w.dest from eraseSet_dest v w hvw]
  cases w.dest with
  | plain k vv =>
    dsimp only
    by_cases hk : x.hasKind k
    · simp only [hk, if_true, Option.getD_some]
      exact eraseSet_update_congr v w hvw (.plain k x) v.isSet w.isSet
    · simp only [hk, if_false, Option.getD_none]
      exact hvw
  | count i => exact hvw
  | append ek es => exact hvw

theorem shortLoop_erase_congr (fuel : Nat) : ∀ (cs : Str) (vs ws : List Var),
    vs.map eraseSet = ws.map eraseSet → ∀ args',
    eraseOut (shortLoop fuel vs cs args') = eraseOut (shortLoop fuel ws cs args') := by
  intro cs
  induction cs with
  | nil => intro vs ws h args'; simp only [shortLoop, eraseOut, h]
  | cons c cs ih =>
    intro vs ws h args'
    simp only [shortLoop]
    rw [← findShort_erase_congr vs ws h c]
    cases hfind : findShort vs c with
    | none => rfl
    | some vi =>
      dsimp only
      have hvw := getD_erase_congr vs ws h vi
      rw [← show (vs.getD vi Var.dummy).dest = (ws.getD vi Var.dummy).dest from
        eraseSet_dest _ _ hvw]
      cases hscan : scanVarF fuel (vs.getD vi Var.dummy).dest [c]
          (if (!(if firstCharIs cs '=' then cs.drop 1 else cs).isEmpty) = true then
            (if firstCharIs cs '=' then cs.drop 1 else cs) :: args' else args') with
      | error e => rfl
      | ok dn =>
        obtain ⟨d', n⟩ := dn
        dsimp only
        have hsets := map_eraseSet_set_congr vs ws h vi _ _
          (eraseSet_update_congr (vs.getD vi Var.dummy) (ws.getD vi Var.dummy) hvw d'
            (vs.getD vi Var.dummy).isSet (ws.getD vi Var.dummy).isSet)
        by_cases hn : n = 0
        · simp only [hn, if_true]
          exact ih _ _ hsets args'
        · simp only [hn, if_false, eraseOut, hsets]

theorem indexLoop_erase_congr (fuel : Nat) : ∀ (cands : List Str) (vs ws : List Var),
    vs.map eraseSet = ws.map eraseSet → ∀ index,
    eraseOut (indexLoop fuel vs cands index) = eraseOut (indexLoop fuel ws cands index) := by
  intro cands
  induction cands with
  | nil => intro vs ws h index; simp only [indexLoop, eraseOut, h]
  | cons cand rest ih =>
    intro vs ws h index
    simp only [indexLoop]
    rw [← findIndex_erase_congr vs ws h index]
    cases hfind : findIndex vs index with
    | none => simp only [eraseOut, h]
    | some vi =>
      dsimp only
      have hvw := getD_erase_congr vs ws h vi
      rw [← show (vs.getD vi Var.dummy).dest = (ws.getD vi Var.dummy).dest from
        eraseSet_dest _ _ hvw]
      cases hscan : scanVarF fuel (vs.getD vi Var.dummy).dest [] [cand] with
      | error e => rfl
      | ok dn =>
        obtain ⟨d', n⟩ := dn
        dsimp only
        exact ih _ _ (map_eraseSet_set_congr vs ws h vi _ _
          (eraseSet_update_congr (vs.getD vi Var.dummy) (ws.getD vi Var.dummy) hvw d'
            true true)) (index + 1)

theorem positionalStage_erase_congr (fuel : Nat) (cands : List Str) (vs ws : List Var)
    (h : vs.map eraseSet = ws.map eraseSet) :
    eraseOut (positionalStage fuel vs cands) = eraseOut (positionalStage fuel ws cands) := by
  unfold positionalStage
  have hidx := indexLoop_erase_congr fuel cands vs ws h 0
  cases hv : indexLoop fuel vs cands 0 with
  | error e =>
    cases hw : indexLoop fuel ws cands 0 with
    | error e2 => rw [hv, hw] at hidx; cases hidx; rfl
    | ok p2 => rw [hv, hw] at hidx; exact absurd hidx (by cases p2; simp [eraseOut])
  | ok p1 =>
    obtain ⟨vs1, index1⟩ := p1
    cases hw : indexLoop fuel ws cands 0 with
    | error e2 => rw [hv, hw] at hidx; exact absurd hidx (by simp [eraseOut])
    | ok p2 =>
      obtain ⟨ws1, index2⟩ := p2
      rw [hv, hw] at hidx
      simp only [eraseOut, Except.ok.injEq, Prod.mk.injEq] at hidx
      obtain ⟨h1, h2⟩ := hidx
      subst h2
      dsimp only
      rw [← missingArgCheck_erase_congr vs1 ws1 h1 index1]
      cases hmc : missingArgCheck vs1 index1 with
      | some e => rfl
      | none =>
        dsimp only
        rw [← findRest_erase_congr vs1 ws1 h1]
        cases hfr : findRest vs1 with
        | none => simp only [eraseOut, h1]
        | some vi =>
          dsimp only
          have hvw := getD_erase_congr vs1 ws1 h1 vi
          have hset := eraseSet_setOpt_congr (vs1.getD vi Var.dummy) (ws1.getD vi Var.dummy)
            hvw (.slice ((cands.drop index1).map Value.str))
          simp only [eraseOut, Except.ok.injEq, Prod.mk.injEq]
          refine ⟨map_eraseSet_set_congr vs1 ws1 h1 vi _ _ ?_, trivial⟩
          show eraseSet (((vs1.getD vi Var.dummy).set _).getD (vs1.getD vi Var.dummy)) =
            eraseSet (((ws1.getD vi Var.dummy).set _).getD (ws1.getD vi Var.dummy))
          exact hset

theorem parseLoop_cons_empty (fuel : Nat) (vars : List Var) (args' acc : List Str) :
    parseLoop (fuel + 1) vars ([] :: args') acc = parseLoop fuel vars args' acc := rfl

theorem parseLoop_cons_plain (fuel : Nat) (vars : List Var) (tok : Str) (args' acc : List Str)
    (hne : tok ≠ []) (hopt : firstCharIs tok '-' = false ∨ tok.length ≤ 1) :
    parseLoop (fuel + 1) vars (tok :: args') acc = parseLoop fuel vars args' (acc ++ [tok]) := by
  match tok, hne with
  | c :: cs, _ =>
    simp only [parseLoop]
    have hdd : ¬(c :: cs = str "--") := by
      rcases hopt with h | h
      · intro he
        rw [he] at h
        simp [str, firstCharIs] at h
      · intro he
        rw [he] at h
        simp [str] at h
    rw [if_neg hdd]
    split
    · rename_i heq
      exfalso
      rcases List.cons_eq_cons.mp heq with ⟨hc, hcs⟩
      rcases hopt with h | h
      · rw [hc] at h
        simp [firstCharIs] at h
      · rw [hcs] at h
        simp at h
    · rename_i heq
      exact absurd heq (by simp)
    · rfl

theorem parseLoop_cons_short (fuel : Nat) (vars : List Var) (c1 : Char) (l : Str)
    (args' acc : List Str) (hc1 : ¬ c1 = '-') :
    parseLoop (fuel + 1) vars (('-' :: c1 :: l) :: args') acc =
      (match shortLoop fuel vars (c1 :: l) args' with
       | .error e => .error e
       | .ok (vars', consumed) => parseLoop fuel vars' (args'.drop consumed) acc) := by
  simp only [parseLoop]
  have hdd : ¬('-' :: c1 :: l = str "--") := by
    intro he
    rcases List.cons_eq_cons.mp he with ⟨_, h2⟩
    rcases List.cons_eq_cons.mp h2 with ⟨hc, _⟩
    exact hc1 hc
  rw [if_neg hdd]
  split
  · rename_i heq
    exact absurd heq hc1
  · rfl

theorem parseLoop_cons_long (fuel : Nat) (vars : List Var) (l : Str)
    (args' acc : List Str) (hl : ¬ l = []) :
    parseLoop (fuel + 1) vars (('-' :: '-' :: l) :: args') acc =
      (let arg : Str := '-' :: '-' :: l
       let parts := match idxOf arg '=' with
         | none => ((arg.drop 2 : Str), (none : Option Str))
         | some idx =>
           if idx + 1 < arg.length then ((arg.take idx).drop 2, some (arg.drop (idx + 1)))
           else ((arg.take idx).drop 2, none)
       let name := parts.1
       let split := parts.2.isSome
       let s := match parts.2 with
         | some g => g :: args'
         | none => args'
       match findName vars name with
       | none => .error (.unknownLong name)
       | some vi =>
         let v := vars.getD vi Var.dummy
         match scanVarF fuel v.dest name s with
         | .error e => .error (.longErr name e)
         | .ok (d', n) =>
           let vars' := vars.set vi { v with dest := d', isSet := true }
           if split ∧ n = 0 then parseLoop fuel vars' (arg :: args') acc
           else parseLoop fuel vars' (args'.drop (n - (if split then 1 else 0))) acc) := by
  simp only [parseLoop]
  have hdd : ¬('-' :: '-' :: l = str "--") := by
    intro he
    rcases List.cons_eq_cons.mp he with ⟨_, h2⟩
    rcases List.cons_eq_cons.mp h2 with ⟨_, h3⟩
    exact hl h3
  rw [if_neg hdd]
  rfl

theorem parseLoop_erase_congr : ∀ (fuel : Nat) (args acc : List Str) (vs ws : List Var),
    vs.map eraseSet = ws.map eraseSet →
    eraseOut (parseLoop fuel vs args acc) = eraseOut (parseLoop fuel ws args acc) := by
  intro fuel
  induction fuel with
  | zero => intro args acc vs ws h; rfl
  | succ fuel ih =>
    intro args acc vs ws h
    cases args with
    | nil => exact positionalStage_erase_congr fuel acc vs ws h
    | cons arg args' =>
      rcases arg with _ | ⟨c0, ctail⟩
      · rw [parseLoop_cons_empty, parseLoop_cons_empty]
        exact ih args' acc vs ws h
      · by_cases hc0 : c0 = '-'
        · subst hc0
          rcases ctail with _ | ⟨c1, l⟩
          · rw [parseLoop_cons_plain fuel vs _ args' acc (by simp) (Or.inr (by simp)),
                parseLoop_cons_plain fuel ws _ args' acc (by simp) (Or.inr (by simp))]
            exact ih args' (acc ++ [['-']]) vs ws h
          · by_cases hc1 : c1 = '-'
            · subst hc1
              rcases l with _ | ⟨c2, l2⟩
              · exact positionalStage_erase_congr fuel (acc ++ args') vs ws h
              · rw [parseLoop_cons_long fuel vs (c2 :: l2) args' acc (by simp),
                    parseLoop_cons_long fuel ws (c2 :: l2) args' acc (by simp)]
                dsimp only
                rw [← findName_erase_congr vs ws h]
                split
                · rfl
                · rename_i vi heq
                  have hvw := getD_erase_congr vs ws h vi
                  rw [← show (vs.getD vi Var.dummy).dest = (ws.getD vi Var.dummy).dest from
                    eraseSet_dest _ _ hvw]
                  split
                  · rfl
                  · rename_i d' n heq2
                    have hsets := map_eraseSet_set_congr vs ws h vi _ _
                      (eraseSet_update_congr (vs.getD vi Var.dummy) (ws.getD vi Var.dummy)
                        hvw d' true true)
                    split
                    · exact ih (('-' :: '-' :: c2 :: l2) :: args') acc _ _ hsets
                    · exact ih _ acc _ _ hsets
            · rw [parseLoop_cons_short fuel vs c1 l args' acc hc1,
                  parseLoop_cons_short fuel ws c1 l args' acc hc1]
              have hsl := shortLoop_erase_congr fuel (c1 :: l) vs ws h args'
              cases hv : shortLoop fuel vs (c1 :: l) args' with
              | error e =>
                cases hw : shortLoop fuel ws (c1 :: l) args' with
                | error e2 => rw [hv, hw] at hsl; cases hsl; rfl
                | ok p => rw [hv, hw] at hsl; exact absurd hsl (by cases p; simp [eraseOut])
              | ok p =>
                obtain ⟨vs', consumed⟩ := p
                cases hw : shortLoop fuel ws (c1 :: l) args' with
                | error e2 => rw [hv, hw] at hsl; exact absurd hsl (by simp [eraseOut])
                | ok p2 =>
                  obtain ⟨ws', consumed2⟩ := p2
                  rw [hv, hw] at hsl
                  simp only [eraseOut, Except.ok.injEq, Prod.mk.injEq] at hsl
                  obtain ⟨h1, h2⟩ := hsl
                  subst h2
                  exact ih (args'.drop consumed) acc vs' ws' h1
        · rw [parseLoop_cons_plain fuel vs (c0 :: ctail) args' acc (by simp)
                (Or.inl (by simp [firstCharIs, hc0])),
              parseLoop_cons_plain fuel ws (c0 :: ctail) args' acc (by simp)
                (Or.inl (by simp [firstCharIs, hc0]))]
          exact ih args' (acc ++ [c0 :: ctail]) vs ws h

theorem scanVarF_skel (fuel : Nat) (d : Dest) (name : Str) (s : List Str) (d' : Dest) (n : Nat)
    (h : scanVarF fuel d name s = .ok (d', n)) : d'.skel = d.skel := by
  cases fuel with
  | zero => exact Except.noConfusion h
  | succ f =>
    simp only [scanVarF] at h
    rcases d with ⟨k, v⟩ | i | ⟨ek, es⟩ <;> dsimp only at h
    · repeat' split at h
      all_goals first | exact Except.noConfusion h | (cases h; rfl)
    · repeat' split at h
      all_goals first | exact Except.noConfusion h | (cases h; rfl)
    · repeat' split at h
      all_goals first | exact Except.noConfusion h | (cases h; rfl)

theorem Var.skel_update (v : Var) (d' : Dest) (b : Bool) (h : d'.skel = v.dest.skel) :
    Var.skel { v with dest := d', isSet := b } = Var.skel v := by
  unfold Var.skel
  dsimp only
  rw [h]

theorem map_skel_set (vs : List Var) (vi : Nat) (u : Var)
    (h : u.skel = (vs.getD vi Var.dummy).skel) :
    (vs.set vi u).map Var.skel = vs.map Var.skel := by
  rw [List.map_set, h, ← List.getD_map vs Var.dummy Var.skel, set_getD_self]

theorem Var.set_skel (v : Var) (x : Value) (v' : Var) (h : v.set x = some v') :
    v'.skel = v.skel := by
  unfold Var.set at h
  split at h
  · rename_i k vv hk
    split at h
    · cases h
      exact Var.skel_update v (.plain k x) v.isSet (by rw [hk]; rfl)
    · exact Option.noConfusion h
  · exact Option.noConfusion h
  · exact Option.noConfusion h

theorem shortLoop_skel (fuel : Nat) : ∀ (cs : Str) (vs : List Var) (args' : List Str)
    (vs' : List Var) (n : Nat), shortLoop fuel vs cs args' = .ok (vs', n) →
    vs'.map Var.skel = vs.map Var.skel := by
  intro cs
  induction cs with
  | nil =>
    intro vs args' vs' n h
    cases h
    rfl
  | cons c cs ih =>
    intro vs args' vs' n h
    simp only [shortLoop] at h
    split at h
    · exact Except.noConfusion h
    · rename_i vi hfind
      split at h
      · exact Except.noConfusion h
      · rename_i d' n0 hscan
        have hset : (vs.set vi { vs.getD vi Var.dummy with dest := d' }).map Var.skel =
            vs.map Var.skel :=
          map_skel_set vs vi _ (Var.skel_update _ d' _
            (scanVarF_skel fuel _ _ _ d' n0 hscan))
        split at h
        · rw [ih _ args' vs' n h, hset]
        · cases h
          exact hset

theorem indexLoop_skel (fuel : Nat) : ∀ (cands : List Str) (vs : List Var) (index : Nat)
    (vs' : List Var) (index' : Nat), indexLoop fuel vs cands index = .ok (vs', index') →
    vs'.map Var.skel = vs.map Var.skel := by
  intro cands
  induction cands with
  | nil =>
    intro vs index vs' index' h
    cases h
    rfl
  | cons cand rest ih =>
    intro vs index vs' index' h
    simp only [indexLoop] at h
    split at h
    · cases h
      rfl
    · rename_i vi hfind
      split at h
      · exact Except.noConfusion h
      · rename_i d' n0 hscan
        rw [ih _ _ vs' index' h]
        exact map_skel_set vs vi _ (Var.skel_update _ d' true
          (scanVarF_skel fuel _ _ _ d' n0 hscan))

theorem positionalStage_skel (fuel : Nat) (vs : List Var) (cands : List Str)
    (vs' : List Var) (r : List Str) (h : positionalStage fuel vs cands = .ok (vs', r)) :
    vs'.map Var.skel = vs.map Var.skel := by
  unfold positionalStage at h
  split at h
  · exact Except.noConfusion h
  · rename_i vs1 index hidx
    have hskel1 := indexLoop_skel fuel cands vs 0 vs1 index hidx
    split at h
    · exact Except.noConfusion h
    · split at h
      · rename_i vi hfr
        cases h
        rw [← hskel1]
        refine map_skel_set vs1 vi _ ?_
        have hv1 : (((vs1.getD vi Var.dummy).set
            (.slice ((cands.drop index).map Value.str))).getD (vs1.getD vi Var.dummy)).skel =
            (vs1.getD vi Var.dummy).skel := by
          cases hset : (vs1.getD vi Var.dummy).set (.slice ((cands.drop index).map Value.str)) with
          | none => rw [Option.getD_none]
          | some v1 => rw [Option.getD_some]
                       exact Var.set_skel _ _ _ hset
        exact (Var.skel_update _ _ true rfl).trans hv1
      · cases h
        exact hskel1

theorem parseLoop_skel : ∀ (fuel : Nat) (args acc : List Str) (vs : List Var)
    (vs' : List Var) (r : List Str), parseLoop fuel vs args acc = .ok (vs', r) →
    vs'.map Var.skel = vs.map Var.skel := by
  intro fuel
  induction fuel with
  | zero => intro args acc vs vs' r h; exact Except.noConfusion h
  | succ fuel ih =>
    intro args acc vs vs' r h
    cases args with
    | nil => exact positionalStage_skel fuel vs acc vs' r h
    | cons arg args' =>
      rcases arg with _ | ⟨c0, ctail⟩
      · rw [parseLoop_cons_empty] at h
        exact ih args' acc vs vs' r h
      · by_cases hc0 : c0 = '-'
        · subst hc0
          rcases ctail with _ | ⟨c1, l⟩
          · rw [parseLoop_cons_plain fuel vs _ args' acc (by simp) (Or.inr (by simp))] at h
            exact ih args' (acc ++ [['-']]) vs vs' r h
          · by_cases hc1 : c1 = '-'
            · subst hc1
              rcases l with _ | ⟨c2, l2⟩
              · exact positionalStage_skel fuel vs (acc ++ args') vs' r h
              · rw [parseLoop_cons_long fuel vs (c2 :: l2) args' acc (by simp)] at h
                dsimp only at h
                split at h
                · exact Except.noConfusion h
                · rename_i vi hfind
                  split at h
                  · exact Except.noConfusion h
                  · rename_i d' n hscan
                    have hset : (vs.set vi { vs.getD vi Var.dummy with
                        dest := d', isSet := true }).map Var.skel = vs.map Var.skel :=
                      map_skel_set vs vi _ (Var.skel_update _ d' true
                        (scanVarF_skel fuel _ _ _ d' n hscan))
                    split at h
                    · rw [ih _ acc _ vs' r h, hset]
                    · rw [ih _ acc _ vs' r h, hset]
            · rw [parseLoop_cons_short fuel vs c1 l args' acc hc1] at h
              split at h
              · exact Except.noConfusion h
              · rename_i vs1 consumed hsl
                rw [ih _ acc _ vs' r h]
                exact shortLoop_skel fuel (c1 :: l) vs args' vs1 consumed hsl
        · rw [parseLoop_cons_plain fuel vs (c0 :: ctail) args' acc (by simp)
            (Or.inl (by simp [firstCharIs, hc0]))] at h
          exact ih args' (acc ++ [c0 :: ctail]) vs vs' r h

theorem applyDefaults_skel : ∀ (vs dvs : List Var), applyDefaults vs = .ok dvs →
    dvs.map Var.skel = vs.map Var.skel := by
  intro vs
  induction vs with
  | nil => intro dvs h; cases h; rfl
  | cons v vs ih =>
    intro dvs h
    simp only [applyDefaults] at h
    split at h
    · split at h
      · exact Except.noConfusion h
      · rename_i vs1 hrec
        cases h
        simp only [List.map]
        rw [ih vs1 hrec]
    · rename_i d hd
      split at h
      · exact Except.noConfusion h
      · rename_i v1 hset
        split at h
        · exact Except.noConfusion h
        · rename_i vs1 hrec
          cases h
          simp only [List.map]
          rw [ih vs1 hrec, Var.set_skel v d v1 hset]

theorem eraseSet_update_congr_skel (v w : Var) (hsk : Var.skel w = Var.skel v) (D : Dest) :
    eraseSet { w with dest := D } = eraseSet { v with dest := D } := by
  show Var.mk D w.name w.short w.index w.rest w.defaultVal false =
    Var.mk D v.name v.short v.index v.rest v.defaultVal false
  rw [show w.name = v.name from congrArg (fun t => t.1) hsk,
    show w.short = v.short from congrArg (fun t => t.2.1) hsk,
    show w.index = v.index from congrArg (fun t => t.2.2.1) hsk,
    show w.rest = v.rest from congrArg (fun t => t.2.2.2.1) hsk,
    show w.defaultVal = v.defaultVal from congrArg (fun t => t.2.2.2.2.1) hsk]

theorem applyDefaults_restart : ∀ (vs vs' dvs : List Var),
    (∀ v ∈ vs, v.defaultVal.isSome) →
    vs'.map Var.skel = vs.map Var.skel →
    applyDefaults vs = .ok dvs →
    ∃ dvs', applyDefaults vs' = .ok dvs' ∧ dvs'.map eraseSet = dvs.map eraseSet := by
  intro vs
  induction vs with
  | nil =>
    intro vs' dvs hdef hsk h
    cases h
    cases vs' with
    | nil => exact ⟨[], rfl, rfl⟩
    | cons w ws => simp [List.map] at hsk
  | cons v vs ih =>
    intro vs' dvs hdef hsk h
    cases vs' with
    | nil => simp [List.map] at hsk
    | cons w ws =>
      simp only [List.map, List.cons.injEq] at hsk
      obtain ⟨hsk1, hsk2⟩ := hsk
      have hvd : v.defaultVal.isSome := hdef v (List.mem_cons_self v vs)
      simp only [applyDefaults] at h
      split at h
      · rename_i hdnone
        rw [hdnone] at hvd
        exact absurd hvd (by simp)
      · rename_i d hd
        split at h
        · exact Except.noConfusion h
        · rename_i v1 hset
          split at h
          · exact Except.noConfusion h
          · rename_i dvs0 hrec
            cases h
            have hdef' : ∀ u ∈ vs, u.defaultVal.isSome :=
              fun u hu => hdef u (List.mem_cons_of_mem v hu)
            obtain ⟨dvs0', hrec', herase⟩ := ih ws dvs0 hdef' hsk2 hrec
            have hwd : w.defaultVal = some d :=
              (show w.defaultVal = v.defaultVal from
                congrArg (fun t => t.2.2.2.2.1) hsk1).trans hd
            have hdsk : w.dest.skel = v.dest.skel :=
              congrArg (fun t => t.2.2.2.2.2) hsk1
            unfold Var.set at hset
            split at hset
            · rename_i k vv heqv
              split at hset
              · rename_i hk
                cases hset
                rw [heqv] at hdsk
                rcases hwdest : w.dest with ⟨k2, vv2⟩ | i2 | ⟨ek2, es2⟩
                · rw [hwdest] at hdsk
                  have hk2 : k2 = k := Sum.inl.inj hdsk
                  subst hk2
                  have hwset : w.set d = some { w with dest := .plain k2 d } := by
                    unfold Var.set
                    rw [hwdest]
                    dsimp only
                    rw [if_pos hk]
                  refine ⟨{ w with dest := .plain k2 d } :: dvs0', ?_, ?_⟩
                  · simp only [applyDefaults]
                    rw [hwd]
                    dsimp only
                    rw [hwset]
                    dsimp only
                    rw [hrec']
                    simp only [hwd]
                  · simp only [List.map, List.cons.injEq]
                    exact ⟨eraseSet_update_congr_skel v w hsk1 (.plain k2 d), herase⟩
                · rw [hwdest] at hdsk
                  exact absurd hdsk (by simp [Dest.skel])
                · rw [hwdest] at hdsk
                  exact absurd hdsk (by simp [Dest.skel])
              · exact Option.noConfusion hset
            · exact Option.noConfusion hset
            · exact Option.noConfusion hset

/-- C5.  Amended idempotence: when every registered binding declares a
default value, a second `parse` started from the bindings left by a
successful first run returns the same leftover arguments and the same
destination contents (lines 674-681 re-apply every default at entry,
overwriting each destination before any token is scanned; only the
`isSet` marks may differ between the two runs' intermediate states).
Without the all-defaults hypothesis the property fails, see the Count
counterexample below. -/
theorem c5_defaults_idempotent (fuel : Nat) (vars : List Var) (args : List Str)
    (vars1 : List Var) (r1 : List Str)
    (hdef : ∀ v ∈ vars, v.defaultVal.isSome)
    (h1 : parse fuel vars args = .ok (vars1, r1)) :
    ∃ vars2, parse fuel vars1 args = .ok (vars2, r1) ∧
      vars2.map Var.dest = vars1.map Var.dest := by
  unfold parse at h1 ⊢
  split at h1
  · exact Except.noConfusion h1
  · rename_i dvars had
    have hskel : vars1.map Var.skel = vars.map Var.skel :=
      (parseLoop_skel fuel args [] dvars vars1 r1 h1).trans (applyDefaults_skel vars dvars had)
    obtain ⟨dvars2, had2, hE⟩ := applyDefaults_restart vars vars1 dvars hdef hskel had
    rw [had2]
    have hcong := parseLoop_erase_congr fuel args [] dvars2 dvars hE
    rw [h1] at hcong
    cases hp2 : parseLoop fuel dvars2 args [] with
    | error e => rw [hp2] at hcong; exact absurd hcong (by simp [eraseOut])
    | ok p =>
      obtain ⟨vars2, r2⟩ := p
      rw [hp2] at hcong
      simp only [eraseOut, Except.ok.injEq, Prod.mk.injEq] at hcong
      obtain ⟨hce, hcr⟩ := hcong
      subst hcr
      refine ⟨vars2, hp2, ?_⟩
      have hd := congrArg (List.map Var.dest) hce
      rw [List.map_map, List.map_map] at hd
      exact hd

/-- C5 counterexample to the claim as stated: a Count destination has no
default to re-apply, so its tally carries across calls (custom.go lines
42-62 increment the stored value); the second parse of `-v`, started from
the state the first one left, returns 2 where the first returned 1. -/
theorem c5_counterexample :
    parse 9 [c5cvar] [str "-v"] =
      .ok ([Var.mk (.count 1) (str "v") (some 'v') none false none false], []) ∧
    parse 9 [Var.mk (.count 1) (str "v") (some 'v') none false none false] [str "-v"] =
      .ok ([Var.mk (.count 2) (str "v") (some 'v') none false none false], []) :=
  ⟨rfl, rfl⟩

/-- Witness for `c5_defaults_idempotent`: re-parsing `-n 5` from the state
left by a first parse of the defaulted binding `c5dvar` reproduces value 5
and empty leftovers. -/
theorem c5_defaults_idempotent_witness :
    ∃ vars2, parse 9 [Var.mk (.plain (.int .i) (.int .i 5)) (str "n") (some 'n') none false
        (some (.int .i 7)) false] [str "-n", str "5"] = .ok (vars2, []) ∧
      vars2.map Var.dest =
        [Var.mk (.plain (.int .i) (.int .i 5)) (str "n") (some 'n') none false
          (some (.int .i 7)) false].map Var.dest :=
  c5_defaults_idempotent 9 [c5dvar] [str "-n", str "5"]
    [Var.mk (.plain (.int .i) (.int .i 5)) (str "n") (some 'n') none false
      (some (.int .i 7)) false] []
    (fun v hv => by
      cases hv with
      | head => rfl
      | tail _ h => cases h)
    rfl

end Argp
